import Mathlib

/-!
Verification of core operators and AST analyses of the Awudima federated
SPARQL engine (awudima/operators/qforms/Xproject.py,
awudima/operators/blocking/NestedLoopOptional.py, awudima/pysparql/model.py,
awudima/sql/rml2sql/term_map.py).

Python dictionaries (variable-name to lexical-value mappings, "tuples" of the
operator pipeline) are embedded as insertion-ordered association lists.
`dlookup` is Python `d[k]` / `d.get(k)` (first matching key), `dset` is
`d[k] = v` (replace in place, else append), `dupdate d1 d2` is `d1.update(d2)`.
Streams are embedded as lists of `Option Dict`: `some t` is a tuple, `none` is
the `"EOF"` sentinel.
-/

namespace Awudima

/-- Python dict embedding: insertion-ordered association list. -/
abbrev Dict := List (String × String)

/-- Python `d[k]` / `d.get(k)`: value at the first occurrence of key `k`. -/
def dlookup : Dict → String → Option String
  | [], _ => none
  | (k', v') :: rest, k => if k' = k then some v' else dlookup rest k

/-- Python `k in d`. -/
def dmem (d : Dict) (k : String) : Bool :=
  (dlookup d k).isSome

/-- Python `d[k] = v`: replace the first occurrence of `k` in place, else append. -/
def dset : Dict → String → String → Dict
  | [], k, v => [(k, v)]
  | (k', v') :: rest, k, v =>
    if k' = k then (k', v) :: rest else (k', v') :: dset rest k v

/-- Python `d1.update(d2)`: set every key/value pair of `d2` into `d1`. -/
def dupdate (d1 d2 : Dict) : Dict :=
  d2.foldl (fun acc p => dset acc p.1 p.2) d1

@[simp] theorem dlookup_nil (k : String) : dlookup [] k = none := rfl

@[simp] theorem dlookup_cons (k' v' : String) (rest : Dict) (k : String) :
    dlookup ((k', v') :: rest) k = if k' = k then some v' else dlookup rest k := rfl

@[simp] theorem dlookup_dset (d : Dict) (k v k' : String) :
    dlookup (dset d k v) k' = if k = k' then some v else dlookup d k' := by
  induction d with
  | nil => simp [dset, dlookup, eq_comm]
  | cons p rest ih =>
    obtain ⟨pk, pv⟩ := p
    by_cases hpk : pk = k
    · subst hpk
      by_cases hk' : pk = k' <;> simp [dset, dlookup, hk']
    · by_cases hk' : pk = k'
      · subst hk'
        simp [dset, dlookup, hpk, Ne.symm hpk]
      · simp [dset, dlookup, hpk, hk', ih]

theorem dmem_dset (d : Dict) (k v k' : String) :
    dmem (dset d k v) k' = ((k = k') || dmem d k') := by
  by_cases h : k = k' <;> simp [dmem, h]

/-- Keys after `update` are the union of both key sets. -/
theorem dmem_dupdate (d1 d2 : Dict) (k : String) :
    dmem (dupdate d1 d2) k = (dmem d1 k || dmem d2 k) := by
  induction d2 generalizing d1 with
  | nil => simp [dupdate, dmem, dlookup]
  | cons p rest ih =>
    obtain ⟨pk, pv⟩ := p
    have : dupdate d1 ((pk, pv) :: rest) = dupdate (dset d1 pk pv) rest := rfl
    rw [this, ih]
    by_cases h : pk = k <;>
      simp [dmem, dmem_dset, h, dlookup]

/-- Looking up a key not touched by the second dict passes through `update`. -/
theorem dlookup_dupdate_of_not_mem (d1 d2 : Dict) (k : String)
    (h : dmem d2 k = false) : dlookup (dupdate d1 d2) k = dlookup d1 k := by
  induction d2 generalizing d1 with
  | nil => rfl
  | cons p rest ih =>
    obtain ⟨pk, pv⟩ := p
    have hpk : ¬(pk = k) := by
      intro he; subst he; simp [dmem, dlookup] at h
    have hrest : dmem rest k = false := by
      simpa [dmem, dlookup, hpk] using h
    have : dupdate d1 ((pk, pv) :: rest) = dupdate (dset d1 pk pv) rest := rfl
    rw [this, ih _ hrest]
    simp [hpk]

/-- A key with a defined lookup occurs among the keys of the dict. -/
theorem dmem_imp_mem_keys (d : Dict) (k : String) (h : dmem d k = true) :
    k ∈ d.map Prod.fst := by
  induction d with
  | nil => simp [dmem, dlookup] at h
  | cons p rest ih =>
    obtain ⟨pk, pv⟩ := p
    by_cases hpk : pk = k
    · simp [hpk]
    · simp only [dmem, dlookup, hpk, if_false] at h
      simp [ih h]

/-- On key-distinct dicts, `update` takes the value of the second dict. -/
theorem dlookup_dupdate_of_mem (d1 d2 : Dict) (k : String)
    (hnd : (d2.map Prod.fst).Nodup) (h : dmem d2 k = true) :
    dlookup (dupdate d1 d2) k = dlookup d2 k := by
  induction d2 generalizing d1 with
  | nil => simp [dmem, dlookup] at h
  | cons p rest ih =>
    obtain ⟨pk, pv⟩ := p
    have hstep : dupdate d1 ((pk, pv) :: rest) = dupdate (dset d1 pk pv) rest := rfl
    simp only [List.map_cons, List.nodup_cons] at hnd
    by_cases hpk : pk = k
    · subst hpk
      have hrest : dmem rest pk = false := by
        cases hmem : dmem rest pk
        · rfl
        · exact absurd (dmem_imp_mem_keys rest pk hmem) hnd.1
      rw [hstep, dlookup_dupdate_of_not_mem _ _ _ hrest]
      simp [dlookup]
    · have hrest : dmem rest k = true := by
        simpa [dmem, dlookup, hpk] using h
      rw [hstep, ih _ hnd.2 hrest]
      simp [dlookup, hpk]

/-!
Xproject (awudima/operators/qforms/Xproject.py, `Xproject.execute`).
`varNames` holds the `.name` strings of the projection `Argument`s; `limit` is
the Python int limit (−1 meaning unbounded).  The input stream is the list of
tuples the operator reads before the `"EOF"` sentinel.
-/

/-- One projected output row: for each projection variable `var`,
`var = var.name[1:]`, `aux = tuple.get(var, '')`, `res.update(var: aux)`. -/
def xprojRow (varNames : List String) (t : Dict) : Dict :=
  varNames.foldl (fun res var => dset res (var.drop 1) ((dlookup t (var.drop 1)).getD "")) []

/-- The `while not (tuple == EOF)` loop of `Xproject.execute`; `i` is the count
of rows already emitted.  Returns everything put on the output queue, with
`none` embedding the final `"EOF"`. -/
def xprojectLoop (varNames : List String) (limit : Int) :
    List Dict → Int → List (Option Dict)
  | [], _ => [none]
  | t :: ts, i =>
    if varNames.length = 0 then
      some t :: xprojectLoop varNames limit ts i
    else
      let res := xprojRow varNames t
      if 0 < limit ∧ limit ≤ i + 1 then [some res, none]
      else some res :: xprojectLoop varNames limit ts (i + 1)

/-- `Xproject.execute`: the counter starts at 0. -/
def xprojectExecute (varNames : List String) (limit : Int) (input : List Dict) :
    List (Option Dict) :=
  xprojectLoop varNames limit input 0

theorem xprojectLoop_of_nonpos (varNames : List String) (limit : Int)
    (hv : varNames ≠ []) (hl : limit ≤ 0) :
    ∀ (input : List Dict) (i : Int),
      xprojectLoop varNames limit input i =
        input.map (fun t => some (xprojRow varNames t)) ++ [none] := by
  intro input
  induction input with
  | nil => intro i; rfl
  | cons t ts ih =>
    intro i
    have hlen : ¬(varNames.length = 0) := by
      simpa [List.length_eq_zero] using hv
    have hbr : ¬(0 < limit ∧ limit ≤ i + 1) := by
      rintro ⟨h1, _⟩; omega
    simp [xprojectLoop, hlen, hbr, ih]

theorem xprojectLoop_of_pos (varNames : List String) (limit : Int)
    (hv : varNames ≠ []) :
    ∀ (input : List Dict) (i : Int), 0 < limit → i < limit →
      xprojectLoop varNames limit input i =
        (input.take (limit - i).toNat).map (fun t => some (xprojRow varNames t)) ++ [none] := by
  intro input
  induction input with
  | nil => intro i _ _; simp [xprojectLoop]
  | cons t ts ih =>
    intro i hl hi
    have hlen : ¬(varNames.length = 0) := by
      simpa [List.length_eq_zero] using hv
    by_cases hbr : limit ≤ i + 1
    · have htake : (limit - i).toNat = 1 := by omega
      simp [xprojectLoop, hlen, hbr, hl, htake]
    · have htake : (limit - i).toNat = ((limit - (i + 1)).toNat) + 1 := by omega
      have hi' : i + 1 < limit := by omega
      simp [xprojectLoop, hlen, hbr, ih (i + 1) hl hi', htake]

/-- Every key of a projected row comes from a projection name with its first
character dropped, and each projection variable is bound to the input value,
defaulting to the empty string. -/
theorem xprojRow_lookup (varNames : List String) (t : Dict) :
    (∀ k, (dlookup (xprojRow varNames t) k).isSome →
        k ∈ varNames.map (fun v => v.drop 1)) ∧
    (∀ v ∈ varNames,
        dlookup (xprojRow varNames t) (v.drop 1) =
          some ((dlookup t (v.drop 1)).getD "")) := by
  have keep : ∀ (ws : List String) (init' : Dict) (key : String),
      dlookup init' key = some ((dlookup t key).getD "") →
      dlookup (ws.foldl (fun res var =>
        dset res (var.drop 1) ((dlookup t (var.drop 1)).getD "")) init') key =
        some ((dlookup t key).getD "") := by
    intro ws
    induction ws with
    | nil => intro init' key h; simpa using h
    | cons u us ihu =>
      intro init' key h
      apply ihu
      by_cases hu : u.drop 1 = key
      · simp [hu]
      · simp [hu, h]
  have main : ∀ (vs : List String) (init : Dict),
      (∀ k, (dlookup (vs.foldl (fun res var =>
          dset res (var.drop 1) ((dlookup t (var.drop 1)).getD "")) init) k).isSome →
        k ∈ vs.map (fun v => v.drop 1) ∨ (dlookup init k).isSome) ∧
      (∀ v ∈ vs,
        dlookup (vs.foldl (fun res var =>
          dset res (var.drop 1) ((dlookup t (var.drop 1)).getD "")) init) (v.drop 1) =
          some ((dlookup t (v.drop 1)).getD "")) := by
    intro vs
    induction vs with
    | nil =>
      intro init
      refine ⟨fun k h => Or.inr h, fun v hv => by simp at hv⟩
    | cons w ws ih =>
      intro init
      refine ⟨?_, ?_⟩
      · intro k h
        rcases (ih (dset init (w.drop 1) ((dlookup t (w.drop 1)).getD ""))).1 k h with hk | hk
        · exact Or.inl (by simp [hk])
        · by_cases hw : w.drop 1 = k
          · exact Or.inl (by simp [hw])
          · right
            simpa [hw] using hk
      · intro v hv
        rcases List.mem_cons.mp hv with hv' | hv'
        · subst hv'
          exact keep ws _ (v.drop 1) (by simp)
        · exact (ih _).2 v hv'
  refine ⟨?_, (main varNames []).2⟩
  intro k h
  rcases (main varNames []).1 k h with hk | hk
  · exact hk
  · simp [dlookup] at hk

/-- C7: with a non-empty projection list, Xproject emits one mapping per input
tuple read before EOF, keyed only by the projection names with their leading
character stripped and with missing keys bound to the empty string; with a
positive limit it stops after `limit` rows and emits EOF; on the concrete
input of the spec scenario with projection `?a` and limit 2 the output is
exactly two rows followed by EOF. -/
theorem C7_xproject_spec (varNames : List String) (limit : Int) (input : List Dict)
    (hv : varNames ≠ []) :
    xprojectExecute varNames limit input =
      ((if 0 < limit then input.take limit.toNat else input).map
        (fun t => some (xprojRow varNames t))) ++ [none] ∧
    (∀ t k, (dlookup (xprojRow varNames t) k).isSome →
        k ∈ varNames.map (fun v => v.drop 1)) ∧
    (∀ t, ∀ v ∈ varNames,
        dlookup (xprojRow varNames t) (v.drop 1) =
          some ((dlookup t (v.drop 1)).getD "")) ∧
    xprojectExecute ["?a"] 2
        [[("a", "1"), ("b", "2")], [("a", "3"), ("b", "4")], [("a", "5"), ("b", "6")]] =
      [some [("a", "1")], some [("a", "3")], none] := by
  refine ⟨?_, fun t k h => (xprojRow_lookup varNames t).1 k h,
    fun t v hv' => (xprojRow_lookup varNames t).2 v hv', by rfl⟩
  by_cases hl : 0 < limit
  · have := xprojectLoop_of_pos varNames limit hv input 0 hl hl
    simpa [xprojectExecute, hl] using this
  · have := xprojectLoop_of_nonpos varNames limit hv (by omega) input 0
    simpa [xprojectExecute, hl] using this

/-- C7 witness: the theorem applied at the concrete spec scenario. -/
theorem C7_xproject_spec_witness :
    xprojectExecute ["?a"] 2
        [[("a", "1"), ("b", "2")], [("a", "3"), ("b", "4")], [("a", "5"), ("b", "6")]] =
      [some [("a", "1")], some [("a", "3")], none] :=
  (C7_xproject_spec ["?a"] 2
    [[("a", "1"), ("b", "2")], [("a", "3"), ("b", "4")], [("a", "5"), ("b", "6")]]
    (by simp)).2.2.2

/-!
Service ordering (awudima/pysparql/model.py, `Service.__lt__`).
`Argument` embeds the Argument class (name, constant flag, desc flag; datatype
and lang are never read by the verified operations).  `Triple` embeds the
Triple class.  `Service` embeds the Service class in the shape relevant to the
ordering claims: its `triples` field is a list of Triples (the
`isinstance(self.triples, list)` branch of every statistic); endpoint, filters
and the other fields are not read by `__lt__` or the statistics.
Python's float division `constantNumber()/places()` is modelled over `ℚ`; the
comparator only uses the order structure of the quotient.
-/

/-- Argument: a SPARQL term atom with a constant flag. -/
structure Argument where
  name : String
  constant : Bool
  desc : Bool := false
deriving DecidableEq

/-- Triple: a triple pattern of three Arguments. -/
structure Triple where
  subject : Argument
  predicate : Argument
  theobject : Argument
deriving DecidableEq

def Triple.const_subjects (t : Triple) : Nat :=
  if t.subject.constant then 1 else 0

def Triple.const_objects (t : Triple) : Nat :=
  if t.theobject.constant then 1 else 0

def Triple.const_predicates (t : Triple) : Nat :=
  if t.predicate.constant then 1 else 0

def Triple.placesT (_ : Triple) : Nat := 3

def Triple.constantNumber (t : Triple) : Nat :=
  (if t.subject.constant then 1 else 0) +
  (if t.predicate.constant then 1 else 0) +
  (if t.theobject.constant then 1 else 0)

/-- Service with a list of triple patterns. -/
structure Service where
  triples : List Triple
deriving DecidableEq

def Service.const_subjects (s : Service) : Nat :=
  s.triples.foldl (fun p t => p + t.const_subjects) 0

def Service.const_objects (s : Service) : Nat :=
  s.triples.foldl (fun p t => p + t.const_objects) 0

def Service.const_predicates (s : Service) : Nat :=
  s.triples.foldl (fun p t => p + t.const_predicates) 0

def Service.placesS (s : Service) : Nat :=
  s.triples.foldl (fun p t => p + t.placesT) 0

def Service.constantNumber (s : Service) : Nat :=
  s.triples.foldl (fun p t => p + t.constantNumber) 0

/-- `Service.constantPercentage`: the one statistic with a zero guard. -/
def Service.constantPercentage (s : Service) : ℚ :=
  if s.placesS = 0 then 0 else (s.constantNumber : ℚ) / (s.placesS : ℚ)

/-- Tail of `Service.__lt__` over the raw statistics: the code after the elif
cascade, reached when every count comparison tied
(`if other.constantPercentage() == self.constantPercentage(): ...`). -/
def svcCascadeTail (scn ocn : Nat) (sq oq : ℚ) : Bool :=
  if oq = sq then
    if ocn > scn then false else true
  else
    decide (sq > oq)

/-- `Service.__lt__(self, other)` over the raw statistics: `scs, scp, sco` are
`self.const_subjects(), const_predicates(), const_objects()`, `ocs, ocp, oco`
the same for `other`, `scn, ocn` the `constantNumber()` values and `sq, oq`
the `constantPercentage()` values. -/
def svcCascade (scs scp sco ocs ocp oco scn ocn : Nat) (sq oq : ℚ) : Bool :=
  if ocs + ocp > scs + scp then false
  else if ocs + ocp < scs + scp then true
  else if ocs > scs then false
  else if ocs < scs then true
  else if oco + ocp > sco + scp then false
  else if oco + ocp < sco + scp then true
  else if oco > sco then false
  else if oco < sco then true
  else if ocs = scs then
    if ocp > scp then false
    else if ocp < scp then true
    else if oco > sco then false
    else if oco < sco then true
    else svcCascadeTail scn ocn sq oq
  else svcCascadeTail scn ocn sq oq

/-- `Service.__lt__(self, other)`: the cascade applied to the Services'
statistic methods. -/
def serviceLt (self other : Service) : Bool :=
  svcCascade self.const_subjects self.const_predicates self.const_objects
    other.const_subjects other.const_predicates other.const_objects
    self.constantNumber other.constantNumber
    self.constantPercentage other.constantPercentage

theorem service_foldl_add (f : Triple → Nat) (l : List Triple) (n : Nat) :
    l.foldl (fun p t => p + f t) n = n + (l.map f).sum := by
  induction l generalizing n with
  | nil => simp
  | cons t ts ih => simp [ih, Nat.add_assoc]

/-- The constant count of a Service splits into the three positional counts. -/
theorem Service.constantNumber_split (s : Service) :
    s.constantNumber = s.const_subjects + s.const_predicates + s.const_objects := by
  unfold Service.constantNumber Service.const_subjects Service.const_predicates
    Service.const_objects
  rw [service_foldl_add, service_foldl_add, service_foldl_add, service_foldl_add]
  simp only [Nat.zero_add]
  induction s.triples with
  | nil => simp
  | cons t ts ih =>
    simp only [List.map_cons, List.sum_cons, ih]
    unfold Triple.constantNumber Triple.const_subjects Triple.const_predicates
      Triple.const_objects
    omega

/-- The four-component key of the cascade: constants in S+P, S, O+P, O. -/
def svcKey (s : Service) : Nat ×ₗ (Nat ×ₗ (Nat ×ₗ Nat)) :=
  toLex (s.const_subjects + s.const_predicates,
    toLex (s.const_subjects,
      toLex (s.const_objects + s.const_predicates, s.const_objects)))

theorem svcKey_eq_iff (a b : Service) :
    svcKey a = svcKey b ↔
      a.const_subjects = b.const_subjects ∧
      a.const_predicates = b.const_predicates ∧
      a.const_objects = b.const_objects := by
  unfold svcKey
  simp only [toLex_inj, Prod.mk.injEq]
  omega

theorem svcKey_lt_iff (a b : Service) :
    svcKey a < svcKey b ↔
      a.const_subjects + a.const_predicates < b.const_subjects + b.const_predicates ∨
      (a.const_subjects + a.const_predicates = b.const_subjects + b.const_predicates ∧
        (a.const_subjects < b.const_subjects ∨
          (a.const_subjects = b.const_subjects ∧
            (a.const_objects + a.const_predicates < b.const_objects + b.const_predicates ∨
              (a.const_objects + a.const_predicates = b.const_objects + b.const_predicates ∧
                a.const_objects < b.const_objects))))) := by
  unfold svcKey
  simp only [Prod.Lex.lt_iff, toLex_inj, Prod.mk.injEq]

theorem svcCascade_iff (scs scp sco ocs ocp oco scn ocn : Nat) (sq oq : ℚ)
    (hcn : scs = ocs → scp = ocp → sco = oco → scn = ocn) :
    svcCascade scs scp sco ocs ocp oco scn ocn sq oq = true ↔
      ((ocs + ocp < scs + scp ∨
        (ocs + ocp = scs + scp ∧
          (ocs < scs ∨
            (ocs = scs ∧
              (oco + ocp < sco + scp ∨
                (oco + ocp = sco + scp ∧ oco < sco)))))) ∨
      ((scs = ocs ∧ scp = ocp ∧ sco = oco) ∧ oq ≤ sq)) := by
  unfold svcCascade
  have htail : ∀ (h1 : scs = ocs) (h2 : scp = ocp) (h3 : sco = oco),
      (svcCascadeTail scn ocn sq oq = true ↔
        ((ocs + ocp < scs + scp ∨
          (ocs + ocp = scs + scp ∧
            (ocs < scs ∨
              (ocs = scs ∧
                (oco + ocp < sco + scp ∨
                  (oco + ocp = sco + scp ∧ oco < sco)))))) ∨
        ((scs = ocs ∧ scp = ocp ∧ sco = oco) ∧ oq ≤ sq))) := by
    intro h1 h2 h3
    have hcneq : scn = ocn := hcn h1 h2 h3
    unfold svcCascadeTail
    by_cases hq : oq = sq
    · rw [if_pos hq, if_neg (by omega : ¬(ocn > scn))]
      exact iff_of_true rfl (Or.inr ⟨⟨h1, h2, h3⟩, le_of_eq hq⟩)
    · rw [if_neg hq]
      constructor
      · intro h
        exact Or.inr ⟨⟨h1, h2, h3⟩, le_of_lt (of_decide_eq_true h)⟩
      · rintro (hA | ⟨_, hle⟩)
        · exact absurd hA (by omega)
        · exact decide_eq_true (lt_of_le_of_ne hle hq)
  by_cases h1 : ocs + ocp > scs + scp
  · rw [if_pos h1]
    exact iff_of_false (by simp) (by rintro (hA | ⟨hB, _⟩) <;> omega)
  · rw [if_neg h1]
    by_cases h2 : ocs + ocp < scs + scp
    · rw [if_pos h2]
      exact iff_of_true rfl (Or.inl (by omega))
    · rw [if_neg h2]
      by_cases h3 : ocs > scs
      · rw [if_pos h3]
        exact iff_of_false (by simp) (by rintro (hA | ⟨hB, _⟩) <;> omega)
      · rw [if_neg h3]
        by_cases h4 : ocs < scs
        · rw [if_pos h4]
          exact iff_of_true rfl (Or.inl (by omega))
        · rw [if_neg h4]
          by_cases h5 : oco + ocp > sco + scp
          · rw [if_pos h5]
            exact iff_of_false (by simp) (by rintro (hA | ⟨hB, _⟩) <;> omega)
          · rw [if_neg h5]
            by_cases h6 : oco + ocp < sco + scp
            · rw [if_pos h6]
              exact iff_of_true rfl (Or.inl (by omega))
            · rw [if_neg h6]
              by_cases h7 : oco > sco
              · rw [if_pos h7]
                exact iff_of_false (by simp) (by rintro (hA | ⟨hB, _⟩) <;> omega)
              · rw [if_neg h7]
                by_cases h8 : oco < sco
                · rw [if_pos h8]
                  exact iff_of_true rfl (Or.inl (by omega))
                · rw [if_neg h8]
                  by_cases h9 : ocs = scs
                  · rw [if_pos h9]
                    by_cases h10 : ocp > scp
                    · rw [if_pos h10]
                      exact iff_of_false (by simp) (by rintro (hA | ⟨hB, _⟩) <;> omega)
                    · rw [if_neg h10]
                      by_cases h11 : ocp < scp
                      · rw [if_pos h11]
                        exact iff_of_true rfl (Or.inl (by omega))
                      · rw [if_neg h11]
                        by_cases h12 : oco > sco
                        · rw [if_pos h12]
                          exact iff_of_false (by simp)
                            (by rintro (hA | ⟨hB, _⟩) <;> omega)
                        · rw [if_neg h12]
                          by_cases h13 : oco < sco
                          · rw [if_pos h13]
                            exact iff_of_true rfl (Or.inl (by omega))
                          · rw [if_neg h13]
                            exact htail (by omega) (by omega) (by omega)
                  · rw [if_neg h9]
                    exact htail (by omega) (by omega) (by omega)

/-- Characterization of the comparator: self wins on a lexicographically
greater key, and every full tie falls through to a non-strict percentage
comparison (so ties yield `true`). -/
theorem serviceLt_iff (a b : Service) :
    serviceLt a b = true ↔
      (svcKey b < svcKey a ∨
        (svcKey a = svcKey b ∧ b.constantPercentage ≤ a.constantPercentage)) := by
  have hcn : a.const_subjects = b.const_subjects → a.const_predicates = b.const_predicates →
      a.const_objects = b.const_objects → a.constantNumber = b.constantNumber := by
    intro h1 h2 h3
    rw [Service.constantNumber_split, Service.constantNumber_split]
    omega
  rw [svcKey_lt_iff, svcKey_eq_iff]
  unfold serviceLt
  exact svcCascade_iff _ _ _ _ _ _ _ _ _ _ hcn

/-- An all-variable single-triple Service: every statistic is zero. -/
def svcAllVars : Service :=
  ⟨[⟨⟨"?s", false, false⟩, ⟨"?p", false, false⟩, ⟨"?o", false, false⟩⟩]⟩

/-- C4 counterexample: irreflexivity fails, a Service compares less-than
itself because a full tie falls through to a non-strict comparison. -/
theorem C4_counterexample_not_irreflexive :
    serviceLt svcAllVars svcAllVars = true :=
  (serviceLt_iff svcAllVars svcAllVars).mpr (Or.inr ⟨rfl, le_refl _⟩)

/-- C4 amended: the comparator is transitive over the key cascade, but it is
not irreflexive; on every full tie, in particular on any Service compared
with itself, it returns true. -/
theorem C4_serviceLt_trans_not_irrefl :
    (∀ s : Service, serviceLt s s = true) ∧
    (∀ a b c : Service, serviceLt a b = true → serviceLt b c = true →
      serviceLt a c = true) := by
  constructor
  · intro s
    exact (serviceLt_iff s s).mpr (Or.inr ⟨rfl, le_refl _⟩)
  · intro a b c hab hbc
    rw [serviceLt_iff] at hab hbc ⊢
    rcases hab with h | ⟨he, hq⟩ <;> rcases hbc with h' | ⟨he', hq'⟩
    · exact Or.inl (lt_trans h' h)
    · exact Or.inl (he' ▸ h)
    · exact Or.inl (lt_of_lt_of_eq h' he.symm)
    · exact Or.inr ⟨he.trans he', le_trans hq' hq⟩

/-- C4 witness: transitivity applied at a concrete chain of Services. -/
theorem C4_serviceLt_trans_not_irrefl_witness :
    serviceLt svcAllVars svcAllVars = true :=
  C4_serviceLt_trans_not_irrefl.2 svcAllVars svcAllVars svcAllVars
    (C4_serviceLt_trans_not_irrefl.1 svcAllVars)
    (C4_serviceLt_trans_not_irrefl.1 svcAllVars)

/-- S1 of the spec scenario: one triple with constant subject and predicate. -/
def svcS1 : Service :=
  ⟨[⟨⟨"<s>", true, false⟩, ⟨"<p>", true, false⟩, ⟨"?o", false, false⟩⟩]⟩

/-- S2 of the spec scenario: two triples contributing no subject constants,
two predicate constants and one object constant. -/
def svcS2 : Service :=
  ⟨[⟨⟨"?a", false, false⟩, ⟨"<p1>", true, false⟩, ⟨"?b", false, false⟩⟩,
    ⟨⟨"?c", false, false⟩, ⟨"<p2>", true, false⟩, ⟨"<o>", true, false⟩⟩]⟩

/-- C5 counterexample: with S1 (1 subject, 1 predicate, 0 object constants)
and S2 (0, 2, 1), `S1 < S2` evaluates to true, not false: the S+P sums tie at
2 and the cascade returns true for the operand with more subject constants. -/
theorem C5_counterexample_S1_lt_S2 : serviceLt svcS1 svcS2 = true := by
  decide

/-- C5 amended: for the spec scenario pair the comparison runs the other way
around: `S1 < S2` is true and `S2 < S1` is false, and on this pair exactly one
direction holds. -/
theorem C5_service_pair_order :
    serviceLt svcS1 svcS2 = true ∧ serviceLt svcS2 svcS1 = false := by
  exact ⟨by decide, by decide⟩

/-!
Algebra AST statistics and instantiation (awudima/pysparql/model.py).
`ExprTerm` embeds expression operands: an `Argument` leaf or an
`Expression(op, left, right)` node whose `right` may be Python `None`.
Attribute accesses that raise in Python (`.desc` on an Expression or on
`None`, `.places()` on `None`, division by zero) are embedded as `none`.
`Node` embeds the block AST: `Triple`, `Service`, `UnionBlock`, `JoinBlock`
and `Optional` nodes.  A `Kids` value embeds the `triples` attribute of
Service/JoinBlock, which is either a single node or a list
(`isinstance(self.triples, list)`); `UnionBlock` statistics iterate the
attribute without an isinstance check, so its children are embedded as a
list.  Filters are held in the separate `filters` attribute and are not
visited by `places`/`constantNumber`.
-/

/-- The `SPARQL.unaryFunctor` string set. -/
def unaryFunctorList : List String :=
  ["!", "BOUND", "bound", "ISIRI", "isiri", "ISURI", "isuri", "ISBLANK",
   "isblank", "ISLITERAL", "isliteral", "STR", "str", "UCASE", "ucase",
   "LANG", "lang", "DATATYPE", "datatype", "xsd:double", "xsd:integer",
   "xsd:decimal", "xsd:float", "xsd:string", "xsd:boolean", "xsd:dateTime",
   "xsd:nonPositiveInteger", "xsd:negativeInteger", "xsd:long", "xsd:int",
   "xsd:short", "xsd:byte", "xsd:nonNegativeInteger", "xsd:unsignedInt",
   "xsd:unsignedShort", "xsd:unsignedByte", "xsd:positiveInteger",
   "<http://www.w3.org/2001/XMLSchema#integer>",
   "<http://www.w3.org/2001/XMLSchema#decimal>",
   "<http://www.w3.org/2001/XMLSchema#double>",
   "<http://www.w3.org/2001/XMLSchema#float>",
   "<http://www.w3.org/2001/XMLSchema#string>",
   "<http://www.w3.org/2001/XMLSchema#boolean>",
   "<http://www.w3.org/2001/XMLSchema#dateTime>",
   "<http://www.w3.org/2001/XMLSchema#nonPositiveInteger>",
   "<http://www.w3.org/2001/XMLSchema#negativeInteger>",
   "<http://www.w3.org/2001/XMLSchema#long>",
   "<http://www.w3.org/2001/XMLSchema#int>",
   "<http://www.w3.org/2001/XMLSchema#short>",
   "<http://www.w3.org/2001/XMLSchema#byte>",
   "<http://www.w3.org/2001/XMLSchema#nonNegativeInteger>",
   "<http://www.w3.org/2001/XMLSchema#unsignedInt>",
   "<http://www.w3.org/2001/XMLSchema#unsignedShort>",
   "<http://www.w3.org/2001/XMLSchema#unsignedByte>",
   "<http://www.w3.org/2001/XMLSchema#positiveInteger>"]

/-- Python integer division `a / b`, raising on `b = 0`, as an Option. -/
def pydiv (a b : Nat) : Option ℚ :=
  if b = 0 then none else some ((a : ℚ) / (b : ℚ))

def Argument.constantNumberA (a : Argument) : Nat :=
  if a.constant then 1 else 0

/-- `Argument.constantPercentage`: `constantNumber()/places()` with `places()=1`. -/
def Argument.constantPercentageA (a : Argument) : Option ℚ :=
  pydiv a.constantNumberA 1

/-- Expression operand: an Argument leaf, or `Expression(op, left, right)`
where `right` is `none` when the Python attribute is `None`. -/
inductive ExprTerm where
  | arg (a : Argument)
  | expr (op : String) (left : ExprTerm) (right : Option ExprTerm)

/-- `Expression.places`: `left.places()` for a unary functor or a REGEX whose
right operand's `desc` is `False`; otherwise `left.places() + right.places()`.
Reading `.desc` of an Expression or of `None`, or calling `.places()` on
`None`, raises and is embedded as `none`. -/
def ExprTerm.placesE : ExprTerm → Option Nat
  | .arg _ => some 1
  | .expr op l r =>
    if op ∈ unaryFunctorList then l.placesE
    else if op = "REGEX" then
      match r with
      | some (.arg a) =>
        if a.desc = false then l.placesE
        else do pure ((← l.placesE) + 1)
      | _ => none
    else
      match r with
      | some rr => do pure ((← l.placesE) + (← rr.placesE))
      | none => none

/-- `Expression.constantNumber`: like `places` but the REGEX guard reads
`left.desc` instead of `right.desc`. -/
def ExprTerm.cnE : ExprTerm → Option Nat
  | .arg a => some a.constantNumberA
  | .expr op l r =>
    if op ∈ unaryFunctorList then l.cnE
    else if op = "REGEX" then
      match l with
      | .arg a =>
        if a.desc = false then some a.constantNumberA
        else
          match r with
          | some rr => do pure (a.constantNumberA + (← rr.cnE))
          | none => none
      | .expr .. => none
    else
      match r with
      | some rr => do pure ((← l.cnE) + (← rr.cnE))
      | none => none

/-- `Expression.constantPercentage`: `constantNumber()/places()`. -/
def ExprTerm.cpE (e : ExprTerm) : Option ℚ :=
  match e.cnE, e.placesE with
  | some c, some p => pydiv c p
  | _, _ => none

/-- Well-formed expression trees: below any non-unary operator the right
operand exists, and every REGEX node has Argument operands with the left
`desc` flag unset. -/
def ExprTerm.wfE : ExprTerm → Bool
  | .arg _ => true
  | .expr op l r =>
    l.wfE &&
    (if op ∈ unaryFunctorList then true
     else if op = "REGEX" then
       match l, r with
       | .arg a, some (.arg _) => a.desc = false
       | _, _ => false
     else
       match r with
       | some rr => rr.wfE
       | none => false)

/-- Filter node: carries its expression; `places`/`constantNumber` of blocks
never visit the `filters` attribute. -/
structure FilterN where
  expr : ExprTerm

mutual
/-- Block AST node. -/
inductive Node where
  | triple (t : Triple)
  | service (kids : Kids)
  | unionB (ns : List Node) (filters : List FilterN)
  | joinB (kids : Kids) (filters : List FilterN) (filtersStr : String)
  | opt (bgg : Node)
/-- The `triples` attribute of Service and JoinBlock: one node or a list. -/
inductive Kids where
  | one (n : Node)
  | many (ns : List Node)
end

mutual
/-- `places()`: the S+P+O slot count of the subtree. -/
def Node.places : Node → Nat
  | .triple _ => 3
  | .service k => Kids.placesK k
  | .unionB ns _ => placesL ns
  | .joinB k _ _ => Kids.placesK k
  | .opt b => Node.places b
def Kids.placesK : Kids → Nat
  | .one n => Node.places n
  | .many ns => placesL ns
def placesL : List Node → Nat
  | [] => 0
  | n :: ns => Node.places n + placesL ns
end

mutual
/-- `constantNumber()`: the count of constant slots of the subtree. -/
def Node.constantNumber : Node → Nat
  | .triple t => t.constantNumber
  | .service k => Kids.cnK k
  | .unionB ns _ => cnL ns
  | .joinB k _ _ => Kids.cnK k
  | .opt b => Node.constantNumber b
def Kids.cnK : Kids → Nat
  | .one n => Node.constantNumber n
  | .many ns => cnL ns
def cnL : List Node → Nat
  | [] => 0
  | n :: ns => Node.constantNumber n + cnL ns
end

/-- `constantPercentage()` by node class: only `Service` guards the zero
denominator (`if self.places() == 0: return 0`); Triple always divides by 3;
UnionBlock, JoinBlock and Optional divide unguarded. -/
def Node.constantPercentage : Node → Option ℚ
  | .triple t => pydiv t.constantNumber 3
  | .service k =>
    if Kids.placesK k = 0 then some 0
    else pydiv (Kids.cnK k) (Kids.placesK k)
  | .unionB ns _ => pydiv (cnL ns) (placesL ns)
  | .joinB k _ _ => pydiv (Kids.cnK k) (Kids.placesK k)
  | .opt b => pydiv (Node.constantNumber b) (Node.places b)

/-- `Query.constantPercentage`: the unguarded quotient over the query body. -/
def queryConstantPercentage (body : Node) : Option ℚ :=
  pydiv (Node.constantNumber body) (Node.places body)

/-- Python `name.lstrip(chars)` for `'?$'`: drop every leading `?` or `$`. -/
def stripVarMarks (s : String) : String :=
  ⟨s.data.dropWhile (fun c => c == '?' || c == '$')⟩

/-- The per-position step of `Triple.instantiate`: a non-constant Argument
whose stripped name is a key of `d` becomes `Argument(d[name], True)`;
otherwise the Argument is returned unchanged. -/
def Argument.instantiate (a : Argument) (d : Dict) : Argument :=
  if a.constant = false ∧ dmem d (stripVarMarks a.name) then
    { name := (dlookup d (stripVarMarks a.name)).getD "", constant := true, desc := false }
  else a

/-- `Triple.instantiate`: a fresh Triple of the instantiated positions. -/
def Triple.instantiate (t : Triple) (d : Dict) : Triple :=
  ⟨t.subject.instantiate d, t.predicate.instantiate d, t.theobject.instantiate d⟩

mutual
/-- `instantiate(d)` of the block AST.  `UnionBlock.instantiate` with a list
of children returns `JoinBlock(ts)` (a JoinBlock with empty filters and empty
filters string); `JoinBlock.instantiate` with a list returns
`JoinBlock(ts, self.filters)`; the single-node branches of Service and
JoinBlock delegate as in the source. -/
def Node.instantiate (d : Dict) : Node → Node
  | .triple t => .triple (t.instantiate d)
  | .service k => .service (Kids.instK d k)
  | .unionB ns _ => .joinB (.many (instL d ns)) [] ""
  | .joinB k f _ =>
    match k with
    | .many ns => .joinB (.many (instL d ns)) f ""
    | .one n => Node.instantiate d n
  | .opt b => .opt (Node.instantiate d b)
def Kids.instK (d : Dict) : Kids → Kids
  | .one n => .one (Node.instantiate d n)
  | .many ns => .many (instL d ns)
def instL (d : Dict) : List Node → List Node
  | [] => []
  | n :: ns => Node.instantiate d n :: instL d ns
end

theorem instL_eq_map (d : Dict) (ns : List Node) :
    instL d ns = ns.map (Node.instantiate d) := by
  induction ns with
  | nil => rfl
  | cons n ns ih => simp [instL, ih]

mutual
/-- Constant counts never exceed slot counts. -/
theorem cn_le_places_node : ∀ n : Node, Node.constantNumber n ≤ Node.places n
  | .triple t => by
    simp only [Node.constantNumber, Node.places, Triple.constantNumber]
    split <;> split <;> split <;> omega
  | .service k => by
    simpa only [Node.constantNumber, Node.places] using cn_le_places_kids k
  | .unionB ns f => by
    simpa only [Node.constantNumber, Node.places] using cn_le_places_list ns
  | .joinB k f s => by
    simpa only [Node.constantNumber, Node.places] using cn_le_places_kids k
  | .opt b => by
    simpa only [Node.constantNumber, Node.places] using cn_le_places_node b
theorem cn_le_places_kids : ∀ k : Kids, Kids.cnK k ≤ Kids.placesK k
  | .one n => by
    simpa only [Kids.cnK, Kids.placesK] using cn_le_places_node n
  | .many ns => by
    simpa only [Kids.cnK, Kids.placesK] using cn_le_places_list ns
theorem cn_le_places_list : ∀ ns : List Node, cnL ns ≤ placesL ns
  | [] => le_refl 0
  | n :: ns => by
    have h1 := cn_le_places_node n
    have h2 := cn_le_places_list ns
    simp only [cnL, placesL]
    omega
end

/-- Well-formed expressions have defined statistics with positive slot count
and constant count below the slot count. -/
theorem exprWf_bounds : ∀ e : ExprTerm, e.wfE = true →
    ∃ p c, e.placesE = some p ∧ e.cnE = some c ∧ 1 ≤ p ∧ c ≤ p
  | .arg a, _ =>
    ⟨1, a.constantNumberA, rfl, rfl, le_refl 1, by
      unfold Argument.constantNumberA; split <;> omega⟩
  | .expr op l r, h => by
    unfold ExprTerm.wfE at h
    rw [Bool.and_eq_true] at h
    obtain ⟨hl, hrest⟩ := h
    obtain ⟨p, c, hp, hc, h1p, hcp⟩ := exprWf_bounds l hl
    by_cases hop : op ∈ unaryFunctorList
    · refine ⟨p, c, ?_, ?_, h1p, hcp⟩
      · unfold ExprTerm.placesE
        simp [hop, hp]
      · unfold ExprTerm.cnE
        simp [hop, hc]
    · rw [if_neg hop] at hrest
      by_cases hreg : op = "REGEX"
      · subst hreg
        rw [if_pos rfl] at hrest
        cases l with
        | expr op2 l2 r2 => simp at hrest
        | arg a =>
          cases r with
          | none => simp at hrest
          | some rr =>
            cases rr with
            | expr op3 l3 r3 => simp at hrest
            | arg b =>
              have hdesc : a.desc = false := by simpa using hrest
              by_cases hbd : b.desc = false
              · refine ⟨1, a.constantNumberA, ?_, ?_, le_refl 1, ?_⟩
                · unfold ExprTerm.placesE
                  simp [hop, hbd]
                  rfl
                · unfold ExprTerm.cnE
                  simp [hop, hdesc]
                · unfold Argument.constantNumberA; split <;> omega
              · refine ⟨2, a.constantNumberA, ?_, ?_, by omega, ?_⟩
                · unfold ExprTerm.placesE
                  simp [hop, hbd]
                  rfl
                · unfold ExprTerm.cnE
                  simp [hop, hdesc]
                · unfold Argument.constantNumberA; split <;> omega
      · cases r with
        | none => rw [if_neg hreg] at hrest; simp at hrest
        | some rr =>
          rw [if_neg hreg] at hrest
          have hrr : rr.wfE = true := by simpa using hrest
          obtain ⟨p2, c2, hp2, hc2, h1p2, hcp2⟩ := exprWf_bounds rr hrr
          refine ⟨p + p2, c + c2, ?_, ?_, by omega, by omega⟩
          · unfold ExprTerm.placesE
            simp [hop, hreg, hp, hp2]
          · unfold ExprTerm.cnE
            simp [hop, hreg, hc, hc2]

/-- A triple pattern used in concrete statistics examples. -/
def tripleEx : Triple :=
  ⟨⟨"?x", false, false⟩, ⟨"<p>", true, false⟩, ⟨"?y", false, false⟩⟩

/-- C6 counterexample: `UnionBlock([]).constantPercentage()` divides by the
zero `places()` of the empty child list and raises instead of returning 0:
the embedded value is `none`, not `some 0`. -/
theorem C6_counterexample_empty_unionBlock :
    Node.constantPercentage (Node.unionB [] []) = none := by
  simp [Node.constantPercentage, cnL, placesL, pydiv]

/-- C6 amended: only `Service.constantPercentage` guards `places() = 0` and
returns 0 there; every node kind returns `constantNumber()/places()` whenever
`places() > 0`, and that value lies in `[0,1]`; but `UnionBlock`, `JoinBlock`,
`Optional` and `Query` raise a division-by-zero error when `places() = 0`;
`Argument.constantPercentage` always lies in `[0,1]`, and
`Expression.constantPercentage` lies in `[0,1]` for well-formed expression
trees (REGEX nodes applied to Arguments with the left `desc` flag unset). -/
theorem C6_constantPercentage_division_guard :
    (∀ k : Kids, Kids.placesK k = 0 →
      Node.constantPercentage (Node.service k) = some 0) ∧
    (∀ n : Node, 0 < Node.places n →
      Node.constantPercentage n =
        some ((Node.constantNumber n : ℚ) / (Node.places n : ℚ)) ∧
      ∃ q, Node.constantPercentage n = some q ∧ 0 ≤ q ∧ q ≤ 1) ∧
    (∀ ns f, placesL ns = 0 → Node.constantPercentage (Node.unionB ns f) = none) ∧
    (∀ k f s, Kids.placesK k = 0 → Node.constantPercentage (Node.joinB k f s) = none) ∧
    (∀ b : Node, Node.places b = 0 → Node.constantPercentage (Node.opt b) = none ∧
      queryConstantPercentage b = none) ∧
    (∀ body : Node, 0 < Node.places body →
      queryConstantPercentage body =
        some ((Node.constantNumber body : ℚ) / (Node.places body : ℚ))) ∧
    (∀ a : Argument, ∃ q, a.constantPercentageA = some q ∧ 0 ≤ q ∧ q ≤ 1) ∧
    (∀ e : ExprTerm, e.wfE = true → ∃ q, e.cpE = some q ∧ 0 ≤ q ∧ q ≤ 1) := by
  have hdivq : ∀ c p : Nat, c ≤ p → 0 < p →
      0 ≤ (c : ℚ) / (p : ℚ) ∧ (c : ℚ) / (p : ℚ) ≤ 1 := by
    intro c p hcp hp
    constructor
    · positivity
    · rw [div_le_one (by exact_mod_cast hp)]
      exact_mod_cast hcp
  refine ⟨?_, ?_, ?_, ?_, ?_, ?_, ?_, ?_⟩
  · intro k hk
    simp [Node.constantPercentage, hk]
  · intro n hn
    have hcn := cn_le_places_node n
    have heq : Node.constantPercentage n =
        some ((Node.constantNumber n : ℚ) / (Node.places n : ℚ)) := by
      cases n with
      | triple t =>
        have h3 : Node.places (Node.triple t) = 3 := rfl
        simp [Node.constantPercentage, Node.places, Node.constantNumber, pydiv]
      | service k =>
        have : ¬(Kids.placesK k = 0) := by
          simpa [Node.places] using Nat.pos_iff_ne_zero.mp hn
        simp [Node.constantPercentage, Node.places, Node.constantNumber, pydiv, this]
      | unionB ns f =>
        have : ¬(placesL ns = 0) := by
          simpa [Node.places] using Nat.pos_iff_ne_zero.mp hn
        simp [Node.constantPercentage, Node.places, Node.constantNumber, pydiv, this]
      | joinB k f s =>
        have : ¬(Kids.placesK k = 0) := by
          simpa [Node.places] using Nat.pos_iff_ne_zero.mp hn
        simp [Node.constantPercentage, Node.places, Node.constantNumber, pydiv, this]
      | opt b =>
        have : ¬(Node.places b = 0) := by
          simpa [Node.places] using Nat.pos_iff_ne_zero.mp hn
        simp [Node.constantPercentage, Node.places, Node.constantNumber, pydiv, this]
    refine ⟨heq, _, heq, hdivq _ _ hcn hn⟩
  · intro ns f hns
    simp [Node.constantPercentage, pydiv, hns]
  · intro k f s hk
    simp [Node.constantPercentage, pydiv, hk]
  · intro b hb
    exact ⟨by simp [Node.constantPercentage, pydiv, hb],
      by simp [queryConstantPercentage, pydiv, hb]⟩
  · intro body hbody
    have : ¬(Node.places body = 0) := Nat.pos_iff_ne_zero.mp hbody
    simp [queryConstantPercentage, pydiv, this]
  · intro a
    refine ⟨a.constantNumberA, by simp [Argument.constantPercentageA, pydiv], ?_, ?_⟩
    · positivity
    · unfold Argument.constantNumberA
      split <;> norm_num
  · intro e he
    obtain ⟨p, c, hp, hc, h1p, hcp⟩ := exprWf_bounds e he
    have hp0 : ¬(p = 0) := by omega
    have hppos : 0 < p := by omega
    refine ⟨(c : ℚ) / (p : ℚ), ?_, hdivq c p hcp hppos⟩
    simp [ExprTerm.cpE, hp, hc, pydiv, hp0]

/-- C6 witness: the division equality applied to a one-triple UnionBlock. -/
theorem C6_constantPercentage_division_guard_witness :
    Node.constantPercentage (Node.unionB [Node.triple tripleEx] []) =
      some ((Node.constantNumber (Node.unionB [Node.triple tripleEx] []) : ℚ) /
        (Node.places (Node.unionB [Node.triple tripleEx] []) : ℚ)) :=
  (C6_constantPercentage_division_guard.2.1 (Node.unionB [Node.triple tripleEx] [])
    (by simp [Node.places, placesL])).1

/-- Discriminator for the algebraic kind of a node. -/
def Node.isUnionB : Node → Bool
  | .unionB .. => true
  | _ => false

/-- A UnionBlock with one one-triple JoinBlock child and one filter. -/
def ubEx : Node :=
  Node.unionB [Node.joinB (Kids.many [Node.triple tripleEx]) [] ""]
    [⟨ExprTerm.arg ⟨"?x", false, false⟩⟩]

def bindEx : Dict := [("x", "<v>")]

/-- The instantiated triple of the counterexample: the subject variable `?x`
becomes the constant `<v>`. -/
def tripleExInst : Triple :=
  ⟨⟨"<v>", true, false⟩, ⟨"<p>", true, false⟩, ⟨"?y", false, false⟩⟩

/-- C8 counterexample: `UnionBlock.instantiate` on a list of children returns
a `JoinBlock` — a conjunction, not a disjunction — and drops the block's
filters. -/
theorem C8_counterexample_union_becomes_join :
    Node.instantiate bindEx ubEx =
      Node.joinB (Kids.many [Node.joinB (Kids.many [Node.triple tripleExInst]) [] ""]) [] "" ∧
    Node.isUnionB (Node.instantiate bindEx ubEx) = false := by
  constructor
  · simp [ubEx, Node.instantiate, instL, Kids.instK, Triple.instantiate,
      Argument.instantiate, stripVarMarks, dmem, dlookup, tripleEx, tripleExInst, bindEx]
  · simp [ubEx, Node.instantiate, instL, Node.isUnionB]

/-- C8 amended: on a list of children, `UnionBlock.instantiate(d)` returns a
`JoinBlock` holding the instantiated children in their original order with an
empty filter list (the union kind and the filters are not preserved);
constant Arguments are returned unchanged by instantiation. -/
theorem C8_unionBlock_instantiate (d : Dict) (ns : List Node) (f : List FilterN) :
    Node.instantiate d (Node.unionB ns f) =
      Node.joinB (Kids.many (ns.map (Node.instantiate d))) [] "" ∧
    (ns.map (Node.instantiate d)).length = ns.length ∧
    (∀ a : Argument, a.constant = true → a.instantiate d = a) := by
  refine ⟨?_, by simp, ?_⟩
  · simp [Node.instantiate, instL_eq_map]
  · intro a ha
    simp [Argument.instantiate, ha]

/-- C8 witness: the amended statement applied at the counterexample input. -/
theorem C8_unionBlock_instantiate_witness :
    Node.instantiate bindEx
        (Node.unionB [Node.joinB (Kids.many [Node.triple tripleEx]) [] ""]
          [⟨ExprTerm.arg ⟨"?x", false, false⟩⟩]) =
      Node.joinB (Kids.many
        ([Node.joinB (Kids.many [Node.triple tripleEx]) [] ""].map
          (Node.instantiate bindEx))) [] "" ∧
    Argument.instantiate ⟨"<p>", true, false⟩ bindEx = ⟨"<p>", true, false⟩ :=
  ⟨(C8_unionBlock_instantiate bindEx
      [Node.joinB (Kids.many [Node.triple tripleEx]) [] ""]
      [⟨ExprTerm.arg ⟨"?x", false, false⟩⟩]).1,
   (C8_unionBlock_instantiate bindEx
      [Node.joinB (Kids.many [Node.triple tripleEx]) [] ""]
      [⟨ExprTerm.arg ⟨"?x", false, false⟩⟩]).2.2 ⟨"<p>", true, false⟩ rfl⟩

/-!
NestedLoopOptional (awudima/operators/blocking/NestedLoopOptional.py).
The operator drains the left stream into a buffer until the `"EOF"` sentinel
(which is also buffered), probes each buffered tuple while more than one item
remains, then drains the result list to the output and emits `"EOF"`.
`Record` and `Table` come from `OperatorStructures`, which is not part of the
covered sources and is modelled from the spec.  Python runtime errors
(KeyError on a missing join variable, the unassigned `join` variable when the
join-variable list is empty and a partition is non-empty) are embedded as a
`crashed` flag; once set, no further state changes happen and nothing is
written to the output stream.  The timestamps `ats` are drawn from a strictly
monotonic counter, the spec's stated requirement for `time()` here.
Emissions are instrumented with `(left ats, right ats)` event pairs and
remote contacts with the `instances` argument list; neither instrumentation
influences the computed tables, results or output.
-/

/-- Record of the hash tables: `(tuple, ats, dts)`. -/
structure Record where
  tuple : Dict
  ats : Nat
  dts : Nat := 0
deriving DecidableEq

/-- Modelled from the spec: `OperatorStructures.Table` is not among the
covered sources.  Per the spec a Table holds a fixed number of partitions
(default size 128), each an append-only list of Records, and the partition
objects always exist, so probe's `if partition:` test is always truthy.
Partitions are embedded as a total function from partition index to the
record list. -/
def Table := Nat → List Record

def Table.empty : Table := fun _ => []

/-- Modelled from the spec: `Table.insertRecord(i, record)` appends to
partition `i`. -/
def Table.insertRecord (t : Table) (i : Nat) (r : Record) : Table :=
  fun j => if j = i then t j ++ [r] else t j

/-- Configuration and external collaborators of one NestedLoopOptional
instance: the hash function (Python `hash` composed with the embedding into
`Nat` used by `% size`), the table size, the remote source
(`right.execute(vars, instances, q)` enqueues `rexec vars instances` and then
`EOF`) with its `atts` attribute, and `self.vars`, the join-variable list. -/
structure NLOEnv where
  hashFn : String → Nat
  size : Nat
  rexec : List String → List String → List Dict
  atts : List String
  vars : List String

/-- Mutable state of the operator: the two tables, the result buffer, the
timestamp counter, the contact and emission instrumentation, and the crash
flag. -/
structure NLOState where
  leftTable : Table
  rightTable : Table
  results : List Dict
  clock : Nat
  calls : List (List String)
  events : List (Nat × Nat)
  crashed : Bool

def initNLOState : NLOState :=
  ⟨Table.empty, Table.empty, [], 0, [], [], false⟩

/-- `isDuplicated(record1, record2)`: `not record1.ats >= record2.ats`. -/
def isDuplicated (r1 r2 : Record) : Bool :=
  !(decide (r1.ats ≥ r2.ats))

/-- The inner `for v in var` loop of probe: read both bindings of each join
variable in order (a missing key raises KeyError, embedded as `none`), break
with `False` on the first mismatch, and report `True` when all match. -/
def checkJoin : List String → Dict → Dict → Option Bool
  | [], _, _ => some true
  | v :: vs, t1, t2 =>
    match dlookup t1 v with
    | none => none
    | some a =>
      match dlookup t2 v with
      | none => none
      | some b => if a = b then checkJoin vs t1 t2 else some false

/-- The `for r in partition.records` scan of probe: stop at the first
duplicated record; with an empty variable list the `if join:` read of the
never-assigned local raises (embedded as `none`); emit one
`record.tuple.copy().update(r.tuple)` result per matching record.  Returns
the emitted `(result, left ats, right ats)` triples in order plus the
`anyjoin` flag. -/
def scanPart (vars : List String) (lrec : Record) :
    List Record → Option (List (Dict × Nat × Nat) × Bool)
  | [] => some ([], false)
  | r :: rs =>
    if isDuplicated lrec r then some ([], false)
    else if vars.isEmpty then none
    else
      match checkJoin vars lrec.tuple r.tuple with
      | none => none
      | some true =>
        match scanPart vars lrec rs with
        | none => none
        | some (out, _) =>
          some ((dupdate lrec.tuple r.tuple, lrec.ats, r.ats) :: out, true)
      | some false => scanPart vars lrec rs

/-- `instances = [record.tuple[v] for v in vars]`. -/
def instancesOf : List String → Dict → Option (List String)
  | [], _ => some []
  | v :: vs, t =>
    match dlookup t v with
    | none => none
    | some a =>
      match instancesOf vs t with
      | none => none
      | some rest => some (a :: rest)

/-- `att1 = '' + tuple[v] + ...` over the join variables. -/
def concatKey (vars : List String) (t : Dict) : Option String :=
  (instancesOf vars t).map (fun l => l.foldl (fun acc s => acc ++ s) "")

/-- `res2 = rtuple.copy(); for v in var: res2.update(v: record.tuple[v])`. -/
def forceJoinVars : List String → Dict → Dict → Option Dict
  | [], _, acc => some acc
  | v :: vs, src, acc =>
    match dlookup src v with
    | none => none
    | some a => forceJoinVars vs src (dset acc v a)

/-- The remote join loop of probe: for each remote tuple, cache
`Record(res2, time(), 0)` in right partition `i` and emit
`rtuple.copy().update(record.tuple)`. -/
def remoteJoinLoop (vars : List String) (lrec : Record) (i : Nat) :
    List Dict → NLOState → NLOState
  | [], st => st
  | rt :: rts, st =>
    match forceJoinVars vars lrec.tuple rt with
    | none => { st with crashed := true }
    | some res2 =>
      let reg : Record := ⟨res2, st.clock, 0⟩
      remoteJoinLoop vars lrec i rts
        { st with
          rightTable := st.rightTable.insertRecord i reg,
          clock := st.clock + 1,
          results := st.results ++ [dupdate rt lrec.tuple],
          events := st.events ++ [(lrec.ats, reg.ats)] }

/-- The `res.update(k: '') for k in self.right.atts` padding dict. -/
def padOf (atts : List String) : Dict :=
  atts.foldl (fun d k => dset d k "") []

/-- `NestedLoopOptional.probe(record, i, partition, vars, right)`.  The
partition object of the spec-modelled Table always exists, so the
`if partition:` guard is taken; the scan runs first; if the partition's
record list was empty or no local join was produced, the remote source is
contacted; its tuples drive the join loop, and an immediate EOF drives the
optional branch, where the cached Record and the emitted result alias one
dict, so the table ends up holding the padding updated with the probing
tuple. -/
def probe (env : NLOEnv) (st : NLOState) (lrec : Record) (i : Nat) : NLOState :=
  if st.crashed then st else
  let part := st.rightTable i
  match scanPart env.vars lrec part with
  | none => { st with crashed := true }
  | some (out, anyjoin) =>
    let st1 := { st with
      results := st.results ++ out.map Prod.fst,
      events := st.events ++ out.map (fun x => (x.2.1, x.2.2)) }
    if part.length = 0 ∨ anyjoin = false then
      match instancesOf env.vars lrec.tuple with
      | none => { st1 with crashed := true }
      | some inst =>
        let st2 := { st1 with calls := st1.calls ++ [inst] }
        match env.rexec env.vars inst with
        | [] =>
          let res := dupdate (padOf env.atts) lrec.tuple
          let reg : Record := ⟨res, st2.clock, 0⟩
          { st2 with
            rightTable := st2.rightTable.insertRecord i reg,
            clock := st2.clock + 1,
            results := st2.results ++ [res],
            events := st2.events ++ [(lrec.ats, reg.ats)] }
        | rt :: rts => remoteJoinLoop env.vars lrec i (rt :: rts) st2
    else st1

/-- `NestedLoopOptional.insertAndProbe(tuple)`: hash the concatenated
join-variable bindings, insert `Record(tuple, time(), 0)` into the left
partition, and probe the right partition. -/
def insertAndProbe (env : NLOEnv) (st : NLOState) (t : Dict) : NLOState :=
  if st.crashed then st else
  match concatKey env.vars t with
  | none => { st with crashed := true }
  | some key =>
    let i := env.hashFn key % env.size
    let lrec : Record := ⟨t, st.clock, 0⟩
    probe env
      { st with
        clock := st.clock + 1,
        leftTable := st.leftTable.insertRecord i lrec }
      lrec i

/-- The `while len(self.left) > 1` loop of execute: pop the buffer head and
insert-and-probe it while more than one buffered item remains (the buffer
ends with the sentinel, which a probe would crash on by indexing a string). -/
def processBuffer (env : NLOEnv) : NLOState → List (Option Dict) → NLOState
  | st, x :: y :: rest =>
    processBuffer env
      (match x with
        | some d => insertAndProbe env st d
        | none => { st with crashed := true })
      (y :: rest)
  | st, _ => st

/-- `NestedLoopOptional.execute`: drain the left stream (tuples then the
sentinel, all buffered), run the probe loop, then put every result followed
by `"EOF"` on the output; an uncaught exception writes nothing. -/
def NLOexecute (env : NLOEnv) (leftTuples : List Dict) :
    NLOState × List (Option Dict) :=
  let st := processBuffer env initNLOState (leftTuples.map some ++ [none])
  (st, if st.crashed then [] else st.results.map some ++ [none])

theorem processBuffer_eq_foldl (env : NLOEnv) (st : NLOState) (ts : List Dict) :
    processBuffer env st (ts.map some ++ [none]) =
      ts.foldl (insertAndProbe env) st := by
  induction ts generalizing st with
  | nil => rfl
  | cons t ts ih =>
    cases ts with
    | nil => simp [processBuffer, List.foldl]
    | cons t2 ts2 =>
      have h := ih (insertAndProbe env st t)
      simp only [List.map_cons, List.cons_append, List.foldl] at h ⊢
      simpa [processBuffer] using h

/-- Every join variable has a binding in the dict. -/
def boundAll (vars : List String) (d : Dict) : Prop :=
  ∀ v ∈ vars, (dlookup d v).isSome

/-- The join-variable valuation of a dict. -/
def valsOf (vars : List String) (d : Dict) : List (Option String) :=
  vars.map (dlookup d)

theorem instancesOf_some_of_bound (vars : List String) (d : Dict)
    (h : boundAll vars d) :
    ∃ l, instancesOf vars d = some l ∧ valsOf vars d = l.map some := by
  induction vars with
  | nil => exact ⟨[], rfl, rfl⟩
  | cons v vs ih =>
    have hv := h v (List.mem_cons_self v vs)
    obtain ⟨a, ha⟩ := Option.isSome_iff_exists.mp hv
    obtain ⟨l, hl, hvl⟩ := ih (fun w hw => h w (List.mem_cons_of_mem _ hw))
    refine ⟨a :: l, ?_, ?_⟩
    · simp [instancesOf, ha, hl]
    · simp [valsOf, ha]
      simpa [valsOf] using hvl

theorem instancesOf_eq_of_vals (vars : List String) (d1 d2 : Dict)
    (h : valsOf vars d1 = valsOf vars d2) :
    instancesOf vars d1 = instancesOf vars d2 := by
  induction vars with
  | nil => rfl
  | cons v vs ih =>
    simp only [valsOf, List.map_cons, List.cons.injEq] at h
    have ihh := ih (by simpa [valsOf] using h.2)
    simp only [instancesOf, h.1, ihh]

theorem concatKey_eq_of_vals (vars : List String) (d1 d2 : Dict)
    (h : valsOf vars d1 = valsOf vars d2) :
    concatKey vars d1 = concatKey vars d2 := by
  simp [concatKey, instancesOf_eq_of_vals vars d1 d2 h]

theorem checkJoin_eq (vars : List String) (a b : Dict)
    (ha : boundAll vars a) (hb : boundAll vars b) :
    checkJoin vars a b = some (decide (valsOf vars a = valsOf vars b)) := by
  induction vars with
  | nil => simp [checkJoin, valsOf]
  | cons v vs ih =>
    obtain ⟨x, hx⟩ := Option.isSome_iff_exists.mp (ha v (List.mem_cons_self v vs))
    obtain ⟨y, hy⟩ := Option.isSome_iff_exists.mp (hb v (List.mem_cons_self v vs))
    have iht := ih (fun w hw => ha w (List.mem_cons_of_mem _ hw))
      (fun w hw => hb w (List.mem_cons_of_mem _ hw))
    by_cases hxy : x = y
    · subst hxy
      simp [checkJoin, hx, hy, iht, valsOf]
    · simp [checkJoin, hx, hy, hxy, valsOf]

/-- A dict matches itself on the join variables. -/
theorem valsOf_refl (vars : List String) (d : Dict) : valsOf vars d = valsOf vars d := rfl

theorem scanPart_spec (vars : List String) (lrec : Record) (part : List Record)
    (hv : vars ≠ [])
    (hb : boundAll vars lrec.tuple)
    (hpb : ∀ r ∈ part, boundAll vars r.tuple)
    (hnd : ∀ r ∈ part, isDuplicated lrec r = false) :
    scanPart vars lrec part =
      some (((part.filter (fun r =>
            decide (valsOf vars lrec.tuple = valsOf vars r.tuple))).map
          (fun r => (dupdate lrec.tuple r.tuple, lrec.ats, r.ats))),
        part.any (fun r =>
          decide (valsOf vars lrec.tuple = valsOf vars r.tuple))) := by
  induction part with
  | nil => simp [scanPart]
  | cons r rs ih =>
    have hdup := hnd r (List.mem_cons_self r rs)
    have hrb := hpb r (List.mem_cons_self r rs)
    have ihh := ih (fun q hq => hpb q (List.mem_cons_of_mem _ hq))
      (fun q hq => hnd q (List.mem_cons_of_mem _ hq))
    have hempty : vars.isEmpty = false := by
      cases vars with
      | nil => exact absurd rfl hv
      | cons _ _ => rfl
    unfold scanPart
    rw [hdup]
    simp only [Bool.false_eq_true, if_false, hempty,
      checkJoin_eq vars lrec.tuple r.tuple hb hrb]
    by_cases hm : valsOf vars lrec.tuple = valsOf vars r.tuple
    · simp [hm, ihh]
    · simp [hm, ihh]

theorem forceJoinVars_spec (vars : List String) (src : Dict)
    (hb : boundAll vars src) :
    ∀ acc : Dict, ∃ d, forceJoinVars vars src acc = some d ∧
      ∀ w, dlookup d w = if w ∈ vars then dlookup src w else dlookup acc w := by
  induction vars with
  | nil =>
    intro acc
    exact ⟨acc, rfl, by simp⟩
  | cons v vs ih =>
    intro acc
    obtain ⟨a, ha⟩ := Option.isSome_iff_exists.mp (hb v (List.mem_cons_self v vs))
    obtain ⟨d, hd, hw⟩ := ih (fun w hw => hb w (List.mem_cons_of_mem _ hw)) (dset acc v a)
    refine ⟨d, by simp [forceJoinVars, ha, hd], ?_⟩
    intro w
    rw [hw w]
    by_cases hwv : w ∈ vs
    · simp [hwv]
    · by_cases hwv2 : w = v
      · subst hwv2
        simp [hwv, ha]
      · simp [hwv, hwv2, Ne.symm hwv2]

theorem dlookup_padOf (atts : List String) (k : String) :
    dlookup (padOf atts) k = if k ∈ atts then some "" else none := by
  have main : ∀ (l : List String) (init : Dict),
      dlookup (l.foldl (fun d a => dset d a "") init) k =
        if k ∈ l then some "" else dlookup init k := by
    intro l
    induction l with
    | nil => intro init; simp
    | cons a as ih =>
      intro init
      rw [List.foldl_cons, ih]
      by_cases hka : k ∈ as
      · simp [hka]
      · by_cases hk : k = a
        · subst hk
          simp [hka]
        · simp [hka, hk, Ne.symm hk]
  simpa [padOf] using main atts []

theorem mem_insertRecord (t : Table) (i : Nat) (r0 : Record) (j : Nat) (r : Record) :
    r ∈ Table.insertRecord t i r0 j ↔ r ∈ t j ∨ (j = i ∧ r = r0) := by
  unfold Table.insertRecord
  by_cases hji : j = i
  · subst hji
    simp
  · simp [hji]

theorem insertRecord_self (t : Table) (i : Nat) (r : Record) :
    Table.insertRecord t i r i = t i ++ [r] := by
  unfold Table.insertRecord
  simp

theorem insertRecord_other (t : Table) (i : Nat) (r : Record) (j : Nat) (h : j ≠ i) :
    Table.insertRecord t i r j = t j := by
  unfold Table.insertRecord
  simp [h]

theorem count_pair_map (l : List Record) (x : Nat) (b : Nat) :
    ((l.map (fun r => (x, r.ats))).count (x, b)) = (l.map Record.ats).count b := by
  induction l with
  | nil => rfl
  | cons r rs ih =>
    by_cases hb : r.ats = b
    · subst hb
      simp [List.count_cons, ih]
    · simp [List.count_cons, ih, hb, Prod.ext_iff]

theorem count_pair_map_ne (l : List Record) (x y : Nat) (b : Nat) (h : y ≠ x) :
    ((l.map (fun r => (x, r.ats))).count (y, b)) = 0 := by
  induction l with
  | nil => rfl
  | cons r rs ih =>
    have hne : ((x, r.ats) == (y, b)) = false := by
      rw [beq_eq_false_iff_ne]
      intro hc
      exact h (congrArg Prod.fst hc).symm
    simp [List.count_cons, ih, hne]

theorem count_eq_zero_of_fst_lt (l : List (Nat × Nat)) (x b : Nat)
    (h : ∀ e ∈ l, e.1 < x) : l.count (x, b) = 0 := by
  rw [List.count_eq_zero]
  intro hc
  have := h _ hc
  simp at this

theorem count_eq_zero_of_snd_lt (l : List (Nat × Nat)) (x b : Nat)
    (h : ∀ e ∈ l, e.2 < b) : l.count (x, b) = 0 := by
  rw [List.count_eq_zero]
  intro hc
  have := h _ hc
  simp at this

theorem remoteJoinLoop_spec (vars : List String) (lrec : Record) (i : Nat)
    (hb : boundAll vars lrec.tuple) :
    ∀ (rts : List Dict) (st : NLOState),
      ∃ regs : List Record,
        (remoteJoinLoop vars lrec i rts st).leftTable = st.leftTable ∧
        (remoteJoinLoop vars lrec i rts st).rightTable = (fun j =>
          if j = i then st.rightTable j ++ regs else st.rightTable j) ∧
        (remoteJoinLoop vars lrec i rts st).results =
          st.results ++ rts.map (fun rt => dupdate rt lrec.tuple) ∧
        (remoteJoinLoop vars lrec i rts st).clock = st.clock + rts.length ∧
        (remoteJoinLoop vars lrec i rts st).calls = st.calls ∧
        (remoteJoinLoop vars lrec i rts st).events =
          st.events ++ regs.map (fun r => (lrec.ats, r.ats)) ∧
        (remoteJoinLoop vars lrec i rts st).crashed = st.crashed ∧
        regs.length = rts.length ∧
        (regs.map Record.ats).Nodup ∧
        (∀ r ∈ regs, st.clock ≤ r.ats ∧ r.ats < st.clock + rts.length ∧
          valsOf vars r.tuple = valsOf vars lrec.tuple ∧ boundAll vars r.tuple) := by
  intro rts
  induction rts with
  | nil =>
    intro st
    refine ⟨[], rfl, ?_, by simp [remoteJoinLoop], by simp [remoteJoinLoop],
      rfl, by simp [remoteJoinLoop], rfl, rfl, by simp, by simp⟩
    funext j
    by_cases hj : j = i <;> simp [remoteJoinLoop, hj]
  | cons rt rts ih =>
    intro st
    obtain ⟨d, hd, hdw⟩ := forceJoinVars_spec vars lrec.tuple hb rt
    obtain ⟨regs', hLT, hRT, hRes, hCk, hCalls, hEv, hCr, hlen', hnd', hfacts'⟩ := ih
      { st with
        rightTable := st.rightTable.insertRecord i ⟨d, st.clock, 0⟩,
        clock := st.clock + 1,
        results := st.results ++ [dupdate rt lrec.tuple],
        events := st.events ++ [(lrec.ats, st.clock)] }
    have hstep : remoteJoinLoop vars lrec i (rt :: rts) st =
        remoteJoinLoop vars lrec i rts
          { st with
            rightTable := st.rightTable.insertRecord i ⟨d, st.clock, 0⟩,
            clock := st.clock + 1,
            results := st.results ++ [dupdate rt lrec.tuple],
            events := st.events ++ [(lrec.ats, st.clock)] } := by
      simp only [remoteJoinLoop, hd]
    dsimp only at hLT hRT hRes hCk hCalls hEv hCr hfacts'
    refine ⟨⟨d, st.clock, 0⟩ :: regs', ?_, ?_, ?_, ?_, ?_, ?_, ?_,
      by simp [hlen'], ?_, ?_⟩
    · rw [hstep, hLT]
    · rw [hstep, hRT]
      funext j
      by_cases hj : j = i <;>
        simp [hj, Table.insertRecord]
    · rw [hstep, hRes]
      simp
    · rw [hstep, hCk]
      simp only [List.length_cons]
      omega
    · rw [hstep, hCalls]
    · rw [hstep, hEv]
      simp
    · rw [hstep, hCr]
    · rw [List.map_cons, List.nodup_cons]
      refine ⟨?_, hnd'⟩
      intro hmem
      rcases List.mem_map.mp hmem with ⟨r, hr, hats⟩
      have h1 := (hfacts' r hr).1
      have h2 : r.ats = st.clock := hats
      omega
    · intro r hr
      rcases List.mem_cons.mp hr with hr | hr
      · subst hr
        refine ⟨le_refl _, ?_, ?_, ?_⟩
        · show st.clock < st.clock + (rt :: rts).length
          simp
        · unfold valsOf
          apply List.map_congr_left
          intro v hv
          rw [hdw v]
          simp [hv]
        · intro v hv
          rw [hdw v]
          simp only [hv, if_pos]
          exact hb v hv
      · obtain ⟨h1, h2, h3, h4⟩ := hfacts' r hr
        refine ⟨by omega, ?_, h3, h4⟩
        show r.ats < st.clock + (rt :: rts).length
        simp only [List.length_cons]
        omega

/-- The execution invariant of the probe loop after processing the tuples in
`seen`:  no crash, timestamps below the clock, all table records bind the
join variables, left tuples have key-distinct dicts, records sit in the
partition of their hashed key, right timestamps are distinct per partition,
every left record has a matching cached right record, every matching
(left record, right record) pair has exactly one emission event, results and
events correspond one to one, remote contacts carry distinct instance lists
coming from probed left tuples, and the left table holds exactly the
processed tuples, at least one result each. -/
structure NLOInv (env : NLOEnv) (seen : List Dict) (st : NLOState) : Prop where
  ok : st.crashed = false
  clockL : ∀ i, ∀ r ∈ st.leftTable i, r.ats < st.clock
  clockR : ∀ i, ∀ r ∈ st.rightTable i, r.ats < st.clock
  evClock : ∀ e ∈ st.events, e.1 < st.clock ∧ e.2 < st.clock
  boundL : ∀ i, ∀ r ∈ st.leftTable i, boundAll env.vars r.tuple
  boundR : ∀ i, ∀ r ∈ st.rightTable i, boundAll env.vars r.tuple
  keysL : ∀ i, ∀ r ∈ st.leftTable i, (r.tuple.map Prod.fst).Nodup
  idxL : ∀ i, ∀ r ∈ st.leftTable i,
    ∃ k, concatKey env.vars r.tuple = some k ∧ env.hashFn k % env.size = i
  idxR : ∀ i, ∀ r ∈ st.rightTable i,
    ∃ k, concatKey env.vars r.tuple = some k ∧ env.hashFn k % env.size = i
  atsR : ∀ i, ((st.rightTable i).map Record.ats).Nodup
  covered : ∀ i, ∀ l ∈ st.leftTable i,
    ∃ r ∈ st.rightTable i, valsOf env.vars l.tuple = valsOf env.vars r.tuple
  onceEv : ∀ i j, ∀ l ∈ st.leftTable i, ∀ r ∈ st.rightTable j,
    valsOf env.vars l.tuple = valsOf env.vars r.tuple →
    st.events.count (l.ats, r.ats) = 1
  resEv : st.results.length = st.events.length
  callsFrom : ∀ c ∈ st.calls,
    ∃ i l, l ∈ st.leftTable i ∧ instancesOf env.vars l.tuple = some c
  callsNodup : st.calls.Nodup
  ltFrom : ∀ i, ∀ r ∈ st.leftTable i, r.tuple ∈ seen
  seenIn : ∀ t ∈ seen, ∃ i r, r ∈ st.leftTable i ∧ r.tuple = t
  resCount : seen.length ≤ st.results.length

theorem NLOInv_init (env : NLOEnv) : NLOInv env [] initNLOState := by
  constructor <;>
    simp [initNLOState, Table.empty]

/-- Probe when the partition already satisfies the probing record: at least
one local match exists and no duplicate break fires, so the scan emits the
matching combinations and the remote source is not contacted. -/
theorem probe_spec_local (env : NLOEnv) (st : NLOState) (lrec : Record) (i : Nat)
    (hcr : st.crashed = false) (hv : env.vars ≠ [])
    (hb : boundAll env.vars lrec.tuple)
    (hbR : ∀ r ∈ st.rightTable i, boundAll env.vars r.tuple)
    (hdup : ∀ r ∈ st.rightTable i, isDuplicated lrec r = false)
    (hany : (st.rightTable i).any
      (fun r => decide (valsOf env.vars lrec.tuple = valsOf env.vars r.tuple)) = true) :
    probe env st lrec i = { st with
      results := st.results ++ (((st.rightTable i).filter
        (fun r => decide (valsOf env.vars lrec.tuple = valsOf env.vars r.tuple))).map
          (fun r => dupdate lrec.tuple r.tuple)),
      events := st.events ++ (((st.rightTable i).filter
        (fun r => decide (valsOf env.vars lrec.tuple = valsOf env.vars r.tuple))).map
          (fun r => (lrec.ats, r.ats))) } := by
  have hcond : ¬((st.rightTable i).length = 0 ∨ ((st.rightTable i).any
      (fun r => decide (valsOf env.vars lrec.tuple = valsOf env.vars r.tuple))) = false) := by
    rintro (h | h)
    · rw [List.length_eq_zero] at h
      rw [h] at hany
      simp at hany
    · rw [hany] at h
      simp at h
  unfold probe
  rw [hcr]
  simp only [Bool.false_eq_true, if_false]
  rw [scanPart_spec env.vars lrec _ hv hb hbR hdup]
  simp only [if_neg hcond]
  simp [List.map_map, Function.comp]

/-- Probe with no local match and an empty remote answer: the source is
contacted once and the optional branch caches and emits the padding dict
updated with the probing tuple. -/
theorem probe_spec_optional (env : NLOEnv) (st : NLOState) (lrec : Record) (i : Nat)
    (inst : List String)
    (hcr : st.crashed = false) (hv : env.vars ≠ [])
    (hb : boundAll env.vars lrec.tuple)
    (hbR : ∀ r ∈ st.rightTable i, boundAll env.vars r.tuple)
    (hdup : ∀ r ∈ st.rightTable i, isDuplicated lrec r = false)
    (hnoj : (st.rightTable i).any
      (fun r => decide (valsOf env.vars lrec.tuple = valsOf env.vars r.tuple)) = false)
    (hinst : instancesOf env.vars lrec.tuple = some inst)
    (hre : env.rexec env.vars inst = []) :
    probe env st lrec i = { st with
      rightTable := st.rightTable.insertRecord i
        ⟨dupdate (padOf env.atts) lrec.tuple, st.clock, 0⟩,
      clock := st.clock + 1,
      calls := st.calls ++ [inst],
      results := st.results ++ [dupdate (padOf env.atts) lrec.tuple],
      events := st.events ++ [(lrec.ats, st.clock)] } := by
  have hfe : ((st.rightTable i).filter
      (fun r => decide (valsOf env.vars lrec.tuple = valsOf env.vars r.tuple))) = [] := by
    rw [List.filter_eq_nil]
    intro r hr
    intro hdec
    have : (st.rightTable i).any
        (fun r => decide (valsOf env.vars lrec.tuple = valsOf env.vars r.tuple)) = true :=
      List.any_eq_true.mpr ⟨r, hr, hdec⟩
    rw [this] at hnoj
    simp at hnoj
  have hcond : ((st.rightTable i).length = 0 ∨ ((st.rightTable i).any
      (fun r => decide (valsOf env.vars lrec.tuple = valsOf env.vars r.tuple))) = false) :=
    Or.inr hnoj
  unfold probe
  rw [hcr]
  simp only [Bool.false_eq_true, if_false]
  rw [scanPart_spec env.vars lrec _ hv hb hbR hdup]
  simp only [if_pos hcond, hfe, hinst, hre]
  simp

/-- Probe with no local match and a non-empty remote answer: the source is
contacted once and the join branch caches each remote tuple with the forced
join-variable bindings and emits the combined rows. -/
theorem probe_spec_remote (env : NLOEnv) (st : NLOState) (lrec : Record) (i : Nat)
    (inst : List String) (rt0 : Dict) (rts0 : List Dict)
    (hcr : st.crashed = false) (hv : env.vars ≠ [])
    (hb : boundAll env.vars lrec.tuple)
    (hbR : ∀ r ∈ st.rightTable i, boundAll env.vars r.tuple)
    (hdup : ∀ r ∈ st.rightTable i, isDuplicated lrec r = false)
    (hnoj : (st.rightTable i).any
      (fun r => decide (valsOf env.vars lrec.tuple = valsOf env.vars r.tuple)) = false)
    (hinst : instancesOf env.vars lrec.tuple = some inst)
    (hre : env.rexec env.vars inst = rt0 :: rts0) :
    ∃ regs : List Record,
      (probe env st lrec i).leftTable = st.leftTable ∧
      (probe env st lrec i).rightTable = (fun j =>
        if j = i then st.rightTable j ++ regs else st.rightTable j) ∧
      (probe env st lrec i).results =
        st.results ++ (rt0 :: rts0).map (fun rt => dupdate rt lrec.tuple) ∧
      (probe env st lrec i).clock = st.clock + (rt0 :: rts0).length ∧
      (probe env st lrec i).calls = st.calls ++ [inst] ∧
      (probe env st lrec i).events =
        st.events ++ regs.map (fun r => (lrec.ats, r.ats)) ∧
      (probe env st lrec i).crashed = false ∧
      regs.length = (rt0 :: rts0).length ∧
      (regs.map Record.ats).Nodup ∧
      (∀ r ∈ regs, st.clock ≤ r.ats ∧ r.ats < st.clock + (rt0 :: rts0).length ∧
        valsOf env.vars r.tuple = valsOf env.vars lrec.tuple ∧
        boundAll env.vars r.tuple) := by
  have hfe : ((st.rightTable i).filter
      (fun r => decide (valsOf env.vars lrec.tuple = valsOf env.vars r.tuple))) = [] := by
    rw [List.filter_eq_nil]
    intro r hr
    intro hdec
    have : (st.rightTable i).any
        (fun r => decide (valsOf env.vars lrec.tuple = valsOf env.vars r.tuple)) = true :=
      List.any_eq_true.mpr ⟨r, hr, hdec⟩
    rw [this] at hnoj
    simp at hnoj
  have hcond : ((st.rightTable i).length = 0 ∨ ((st.rightTable i).any
      (fun r => decide (valsOf env.vars lrec.tuple = valsOf env.vars r.tuple))) = false) :=
    Or.inr hnoj
  have hpr : probe env st lrec i =
      remoteJoinLoop env.vars lrec i (rt0 :: rts0) { st with calls := st.calls ++ [inst] } := by
    unfold probe
    rw [hcr]
    simp only [Bool.false_eq_true, if_false]
    rw [scanPart_spec env.vars lrec _ hv hb hbR hdup]
    simp only [if_pos hcond, hfe, hinst, hre]
    simp
  obtain ⟨regs, hLT, hRT, hRes, hCk, hCalls, hEv, hCr, hlen, hnd, hfacts⟩ :=
    remoteJoinLoop_spec env.vars lrec i hb (rt0 :: rts0)
      { st with calls := st.calls ++ [inst] }
  rw [hpr]
  exact ⟨regs, hLT, hRT, hRes, hCk, by rw [hCalls], hEv, by rw [hCr, hcr], hlen, hnd, hfacts⟩

theorem instancesOf_vals (vars : List String) (d : Dict) (c : List String)
    (h : instancesOf vars d = some c) : valsOf vars d = c.map some := by
  induction vars generalizing c with
  | nil =>
    simp only [instancesOf, Option.some.injEq] at h
    subst h
    rfl
  | cons v vs ih =>
    simp only [instancesOf] at h
    rcases hlv : dlookup d v with _ | a
    · rw [hlv] at h
      cases h
    · rw [hlv] at h
      rcases hrest : instancesOf vs d with _ | rest
      · rw [hrest] at h
        cases h
      · rw [hrest] at h
        simp only [Option.some.injEq] at h
        subst h
        have hih := ih rest hrest
        simp only [valsOf] at hih
        simp [valsOf, hlv, hih]

theorem insertAndProbe_eq_probe (env : NLOEnv) (st : NLOState) (t : Dict) (k : String)
    (hcr : st.crashed = false) (hck : concatKey env.vars t = some k) :
    insertAndProbe env st t =
      probe env { st with
          clock := st.clock + 1,
          leftTable := st.leftTable.insertRecord (env.hashFn k % env.size) ⟨t, st.clock, 0⟩ }
        ⟨t, st.clock, 0⟩ (env.hashFn k % env.size) := by
  unfold insertAndProbe
  rw [hcr]
  simp only [Bool.false_eq_true, if_false, hck]

set_option maxHeartbeats 3000000 in
/-- One probe step preserves the execution invariant and accounts for the
newly processed tuple. -/
theorem insertAndProbe_inv (env : NLOEnv) (seen : List Dict) (st : NLOState) (t : Dict)
    (hinv : NLOInv env seen st) (hv : env.vars ≠ [])
    (hbt : boundAll env.vars t) (hkt : (t.map Prod.fst).Nodup) :
    NLOInv env (seen ++ [t]) (insertAndProbe env st t) := by
  obtain ⟨inst, hio, hvalsi⟩ := instancesOf_some_of_bound env.vars t hbt
  have hck : concatKey env.vars t = some (inst.foldl (fun acc s => acc ++ s) "") := by
    simp [concatKey, hio]
  rw [insertAndProbe_eq_probe env st t _ hinv.ok hck]
  set K := inst.foldl (fun acc s => acc ++ s) "" with hKdef
  set I := env.hashFn K % env.size with hIdef
  set lrec : Record := ⟨t, st.clock, 0⟩ with hlrecdef
  set st' : NLOState := { st with
      clock := st.clock + 1,
      leftTable := st.leftTable.insertRecord I lrec } with hstdef
  have hcr' : st'.crashed = false := hinv.ok
  have hRT' : st'.rightTable = st.rightTable := rfl
  have hblrec : boundAll env.vars lrec.tuple := hbt
  have hbR' : ∀ r ∈ st'.rightTable I, boundAll env.vars r.tuple := hinv.boundR I
  have hdup' : ∀ r ∈ st'.rightTable I, isDuplicated lrec r = false := by
    intro r hr
    have := hinv.clockR I r hr
    simp only [isDuplicated, Bool.not_eq_false', decide_eq_true_eq]
    show st.clock ≥ r.ats
    omega
  have hmemL : ∀ j r, r ∈ st'.leftTable j ↔ (r ∈ st.leftTable j ∨ (j = I ∧ r = lrec)) := by
    intro j r
    exact mem_insertRecord st.leftTable I lrec j r
  -- a right record matching the probing tuple lies in partition I
  have hsamePart : ∀ j r, r ∈ st.rightTable j →
      valsOf env.vars t = valsOf env.vars r.tuple → j = I := by
    intro j r hr hveq
    obtain ⟨k2, hk2, hj⟩ := hinv.idxR j r hr
    have := concatKey_eq_of_vals env.vars t r.tuple hveq
    rw [hck, hk2] at this
    have hkk : K = k2 := by
      simpa using this
    rw [← hj, ← hkk, ← hIdef]
  by_cases hany : (st.rightTable I).any
      (fun r => decide (valsOf env.vars lrec.tuple = valsOf env.vars r.tuple)) = true
  · -- local-match case: no contact
    rw [probe_spec_local env st' lrec I hcr' hv hblrec hbR' hdup' hany]
    set matched := ((st.rightTable I).filter
      (fun r => decide (valsOf env.vars lrec.tuple = valsOf env.vars r.tuple))) with hmdef
    have hmsub : matched.Sublist (st.rightTable I) := List.filter_sublist _
    have hmlen : 0 < matched.length := by
      obtain ⟨r, hr, hdec⟩ := List.any_eq_true.mp hany
      exact List.length_pos_of_mem (List.mem_filter.mpr ⟨hr, hdec⟩)
    constructor
    · exact hinv.ok
    · intro j r hr
      rcases (hmemL j r).mp hr with hr | ⟨hj, hr⟩
      · have := hinv.clockL j r hr
        show r.ats < st.clock + 1
        omega
      · subst hr
        show st.clock < st.clock + 1
        omega
    · intro j r hr
      have := hinv.clockR j r hr
      show r.ats < st.clock + 1
      omega
    · intro e he
      rcases List.mem_append.mp he with he | he
      · have := hinv.evClock e he
        show e.1 < st.clock + 1 ∧ e.2 < st.clock + 1
        omega
      · obtain ⟨r, hr, hre⟩ := List.mem_map.mp he
        have := hinv.clockR I r (hmsub.mem hr)
        rw [← hre]
        show lrec.ats < st.clock + 1 ∧ r.ats < st.clock + 1
        constructor
        · show st.clock < st.clock + 1
          omega
        · omega
    · intro j r hr
      rcases (hmemL j r).mp hr with hr | ⟨hj, hr⟩
      · exact hinv.boundL j r hr
      · subst hr
        exact hbt
    · exact hinv.boundR
    · intro j r hr
      rcases (hmemL j r).mp hr with hr | ⟨hj, hr⟩
      · exact hinv.keysL j r hr
      · subst hr
        exact hkt
    · intro j r hr
      rcases (hmemL j r).mp hr with hr | ⟨hj, hr⟩
      · exact hinv.idxL j r hr
      · subst hr hj
        exact ⟨K, hck, rfl⟩
    · exact hinv.idxR
    · exact hinv.atsR
    · intro j l hl
      rcases (hmemL j l).mp hl with hl | ⟨hj, hl⟩
      · exact hinv.covered j l hl
      · subst hl hj
        obtain ⟨r, hr, hdec⟩ := List.any_eq_true.mp hany
        exact ⟨r, hr, of_decide_eq_true hdec⟩
    · intro j j2 l hl r hr hm
      rw [List.count_append]
      have hE : st'.events = st.events := rfl
      rw [hE]
      rcases (hmemL j l).mp hl with hl | ⟨hj, hl⟩
      · have h1 := hinv.onceEv j j2 l hl r hr hm
        have hlc := hinv.clockL j l hl
        have h2 : ((matched.map (fun r => (lrec.ats, r.ats))).count (l.ats, r.ats)) = 0 := by
          apply count_pair_map_ne
          show l.ats ≠ st.clock
          omega
        omega
      · subst hl
        have h1 : st.events.count (lrec.ats, r.ats) = 0 := by
          apply count_eq_zero_of_fst_lt
          intro e he
          exact (hinv.evClock e he).1
        have hj2 : j2 = I := hsamePart j2 r hr hm
        rw [hj2] at hr
        have hrm : r ∈ matched := List.mem_filter.mpr ⟨hr, decide_eq_true hm⟩
        have h2 : ((matched.map (fun r => (lrec.ats, r.ats))).count (lrec.ats, r.ats)) = 1 := by
          rw [count_pair_map]
          exact List.count_eq_one_of_mem ((hinv.atsR I).sublist (hmsub.map Record.ats))
            (List.mem_map.mpr ⟨r, hrm, rfl⟩)
        omega
    · simp only [hstdef, List.length_append, List.length_map]
      have := hinv.resEv
      omega
    · intro c hc
      obtain ⟨j, l, hl, hi⟩ := hinv.callsFrom c hc
      exact ⟨j, l, (hmemL j l).mpr (Or.inl hl), hi⟩
    · exact hinv.callsNodup
    · intro j r hr
      rcases (hmemL j r).mp hr with hr | ⟨hj, hr⟩
      · exact List.mem_append.mpr (Or.inl (hinv.ltFrom j r hr))
      · subst hr
        simp
    · intro u hu
      rcases List.mem_append.mp hu with hu | hu
      · obtain ⟨j, r, hr, hrt⟩ := hinv.seenIn u hu
        exact ⟨j, r, (hmemL j r).mpr (Or.inl hr), hrt⟩
      · simp only [List.mem_singleton] at hu
        subst hu
        exact ⟨I, lrec, (hmemL I lrec).mpr (Or.inr ⟨rfl, rfl⟩), rfl⟩
    · simp only [hstdef, List.length_append, List.length_map, List.length_singleton]
      have h1 := hinv.resCount
      have h2 := hmlen
      omega
  · -- no local match: the source is contacted
    have hnoj : (st.rightTable I).any
        (fun r => decide (valsOf env.vars lrec.tuple = valsOf env.vars r.tuple)) = false :=
      Bool.not_eq_true _ ▸ (by simpa using hany)
    have hinst : instancesOf env.vars lrec.tuple = some inst := hio
    -- no earlier left tuple matches the probing tuple
    have hnomatchL : ∀ j, ∀ l ∈ st.leftTable j,
        ¬(valsOf env.vars l.tuple = valsOf env.vars t) := by
      intro j l hl hveq
      obtain ⟨r, hr, hlr⟩ := hinv.covered j l hl
      have hrt : valsOf env.vars t = valsOf env.vars r.tuple := (hveq.symm).trans hlr
      obtain ⟨k2, hk2, hj⟩ := hinv.idxL j l hl
      have hclt : concatKey env.vars l.tuple = concatKey env.vars t :=
        concatKey_eq_of_vals env.vars l.tuple t hveq
      rw [hck, hk2] at hclt
      have hkk : k2 = K := by simpa using hclt
      have hjI : j = I := by rw [← hj, hkk, ← hIdef]
      rw [hjI] at hr
      have : (st.rightTable I).any
          (fun r => decide (valsOf env.vars lrec.tuple = valsOf env.vars r.tuple)) = true :=
        List.any_eq_true.mpr ⟨r, hr, decide_eq_true hrt⟩
      rw [this] at hnoj
      cases hnoj
    -- the new contact's instance list is fresh
    have hinstFresh : inst ∉ st.calls := by
      intro hmem
      obtain ⟨j, l, hl, hi⟩ := hinv.callsFrom inst hmem
      have : valsOf env.vars l.tuple = inst.map some := instancesOf_vals env.vars l.tuple inst hi
      exact hnomatchL j l hl (this.trans hvalsi.symm)
    rcases hre : env.rexec env.vars inst with _ | ⟨rt0, rts0⟩
    · -- optional branch
      rw [probe_spec_optional env st' lrec I inst hcr' hv hblrec hbR' hdup' hnoj hinst hre]
      set resD := dupdate (padOf env.atts) lrec.tuple with hresD
      set reg : Record := ⟨resD, st'.clock, 0⟩ with hreg
      have hvreg : valsOf env.vars resD = valsOf env.vars t := by
        unfold valsOf
        apply List.map_congr_left
        intro v hv2
        rw [hresD]
        exact dlookup_dupdate_of_mem (padOf env.atts) t v hkt
          (by
            have := hbt v hv2
            simpa [dmem] using this)
      have hbreg : boundAll env.vars resD := by
        intro v hv2
        have := hbt v hv2
        have hm2 : dmem resD v = true := by
          rw [hresD, dmem_dupdate]
          simp [dmem]
          right
          simpa [dmem] using this
        simpa [dmem] using hm2
      have hmemR : ∀ j r, r ∈ (st.rightTable.insertRecord I reg) j ↔
          (r ∈ st.rightTable j ∨ (j = I ∧ r = reg)) := by
        intro j r
        exact mem_insertRecord st.rightTable I reg j r
      constructor
      · exact hinv.ok
      · intro j r hr
        rcases (hmemL j r).mp hr with hr | ⟨hj, hr⟩
        · have := hinv.clockL j r hr
          show r.ats < st.clock + 1 + 1
          omega
        · subst hr
          show st.clock < st.clock + 1 + 1
          omega
      · intro j r hr
        rcases (hmemR j r).mp hr with hr | ⟨hj, hr⟩
        · have := hinv.clockR j r hr
          show r.ats < st.clock + 1 + 1
          omega
        · subst hr
          show st'.clock < st.clock + 1 + 1
          show st.clock + 1 < st.clock + 1 + 1
          omega
      · intro e he
        rcases List.mem_append.mp he with he | he
        · have := hinv.evClock e he
          show e.1 < st.clock + 1 + 1 ∧ e.2 < st.clock + 1 + 1
          omega
        · simp only [List.mem_singleton] at he
          subst he
          constructor
          · show st.clock < st.clock + 1 + 1
            omega
          · show st.clock + 1 < st.clock + 1 + 1
            omega
      · intro j r hr
        rcases (hmemL j r).mp hr with hr | ⟨hj, hr⟩
        · exact hinv.boundL j r hr
        · subst hr
          exact hbt
      · intro j r hr
        rcases (hmemR j r).mp hr with hr | ⟨hj, hr⟩
        · exact hinv.boundR j r hr
        · subst hr
          exact hbreg
      · intro j r hr
        rcases (hmemL j r).mp hr with hr | ⟨hj, hr⟩
        · exact hinv.keysL j r hr
        · subst hr
          exact hkt
      · intro j r hr
        rcases (hmemL j r).mp hr with hr | ⟨hj, hr⟩
        · exact hinv.idxL j r hr
        · subst hr hj
          exact ⟨K, hck, rfl⟩
      · intro j r hr
        rcases (hmemR j r).mp hr with hr | ⟨hj, hr⟩
        · exact hinv.idxR j r hr
        · subst hr hj
          refine ⟨K, ?_, rfl⟩
          show concatKey env.vars resD = some K
          rw [concatKey_eq_of_vals env.vars resD t hvreg, hck]
      · intro j
        show ((st.rightTable.insertRecord I reg) j).map Record.ats |>.Nodup
        by_cases hj : j = I
        · subst hj
          rw [insertRecord_self, List.map_append, List.nodup_append]
          refine ⟨hinv.atsR I, by simp, ?_⟩
          intro a ha hb
          simp only [List.map_cons, List.map_nil, List.mem_singleton] at hb
          obtain ⟨r, hr, hra⟩ := List.mem_map.mp ha
          have hcl := hinv.clockR I r hr
          rw [hb] at hra
          have hrg : reg.ats = st.clock + 1 := rfl
          omega
        · rw [insertRecord_other _ _ _ _ hj]
          exact hinv.atsR j
      · intro j l hl
        rcases (hmemL j l).mp hl with hl | ⟨hj, hl⟩
        · obtain ⟨r, hr, hlr⟩ := hinv.covered j l hl
          exact ⟨r, (hmemR j r).mpr (Or.inl hr), hlr⟩
        · subst hl hj
          refine ⟨reg, (hmemR I reg).mpr (Or.inr ⟨rfl, rfl⟩), ?_⟩
          show valsOf env.vars t = valsOf env.vars resD
          exact hvreg.symm
      · intro j j2 l hl r hr hm
        rw [List.count_append]
        have hE : st'.events = st.events := rfl
        rw [hE]
        rcases (hmemL j l).mp hl with hl | ⟨hj, hl⟩
        · rcases (hmemR j2 r).mp hr with hr | ⟨hj2, hr⟩
          · have h1 := hinv.onceEv j j2 l hl r hr hm
            have hlc := hinv.clockL j l hl
            have h2 : (([(lrec.ats, st'.clock)] : List (Nat × Nat)).count (l.ats, r.ats)) = 0 := by
              rw [List.count_eq_zero]
              simp only [List.mem_singleton]
              intro hc
              have hfst : l.ats = lrec.ats := congrArg Prod.fst hc
              have hl2 : lrec.ats = st.clock := rfl
              omega
            omega
          · subst hr
            exfalso
            apply hnomatchL j l hl
            have : valsOf env.vars reg.tuple = valsOf env.vars t := hvreg
            exact hm.trans this
        · subst hl
          rcases (hmemR j2 r).mp hr with hr | ⟨hj2, hr⟩
          · exfalso
            have hj2I : j2 = I := hsamePart j2 r hr hm
            rw [hj2I] at hr
            have hAny2 : (st.rightTable I).any
                (fun r => decide (valsOf env.vars lrec.tuple = valsOf env.vars r.tuple)) = true :=
              List.any_eq_true.mpr ⟨r, hr, decide_eq_true hm⟩
            rw [hAny2] at hnoj
            cases hnoj
          · subst hr
            have h1 : st.events.count (lrec.ats, reg.ats) = 0 := by
              apply count_eq_zero_of_fst_lt
              intro e he
              exact (hinv.evClock e he).1
            have h2 : (([(lrec.ats, st'.clock)] : List (Nat × Nat)).count (lrec.ats, reg.ats)) = 1 := by
              have hra : reg.ats = st'.clock := rfl
              rw [hra]
              simp
            omega
      · simp only [hstdef, List.length_append, List.length_singleton]
        have := hinv.resEv
        omega
      · intro c hc
        rcases List.mem_append.mp hc with hc | hc
        · obtain ⟨j, l, hl, hi⟩ := hinv.callsFrom c hc
          exact ⟨j, l, (hmemL j l).mpr (Or.inl hl), hi⟩
        · simp only [List.mem_singleton] at hc
          subst hc
          exact ⟨I, lrec, (hmemL I lrec).mpr (Or.inr ⟨rfl, rfl⟩), hinst⟩
      · rw [List.nodup_append]
        exact ⟨hinv.callsNodup, by simp, by
          intro a ha hb
          simp only [List.mem_singleton] at hb
          subst hb
          exact hinstFresh ha⟩
      · intro j r hr
        rcases (hmemL j r).mp hr with hr | ⟨hj, hr⟩
        · exact List.mem_append.mpr (Or.inl (hinv.ltFrom j r hr))
        · subst hr
          simp
      · intro u hu
        rcases List.mem_append.mp hu with hu | hu
        · obtain ⟨j, r, hr, hrt⟩ := hinv.seenIn u hu
          exact ⟨j, r, (hmemL j r).mpr (Or.inl hr), hrt⟩
        · simp only [List.mem_singleton] at hu
          subst hu
          exact ⟨I, lrec, (hmemL I lrec).mpr (Or.inr ⟨rfl, rfl⟩), rfl⟩
      · simp only [hstdef, List.length_append, List.length_singleton]
        have := hinv.resCount
        omega
    · -- remote join branch
      obtain ⟨regs, hLT, hRTr, hRes, hCk, hCalls, hEv, hCr, hlen, hnd, hfacts⟩ :=
        probe_spec_remote env st' lrec I inst rt0 rts0 hcr' hv hblrec hbR' hdup' hnoj hinst hre
      have hmemR : ∀ j r, r ∈ (probe env st' lrec I).rightTable j ↔
          (r ∈ st.rightTable j ∨ (j = I ∧ r ∈ regs)) := by
        intro j r
        rw [hRTr]
        by_cases hj : j = I
        · subst hj
          simp [hRT']
        · simp [hj, hRT']
      have hfacts' : ∀ r ∈ regs, st.clock + 1 ≤ r.ats ∧
          r.ats < st.clock + 1 + (rt0 :: rts0).length ∧
          valsOf env.vars r.tuple = valsOf env.vars t ∧ boundAll env.vars r.tuple := by
        intro r hr
        obtain ⟨h1, h2, h3, h4⟩ := hfacts r hr
        exact ⟨h1, h2, h3, h4⟩
      have hclock : (probe env st' lrec I).clock = st.clock + 1 + (rt0 :: rts0).length := hCk
      constructor
      · rw [hCr]
      · intro j r hr
        rw [hLT] at hr
        rw [hclock]
        rcases (hmemL j r).mp hr with hr | ⟨hj, hr⟩
        · have := hinv.clockL j r hr
          omega
        · subst hr
          show st.clock < st.clock + 1 + (rt0 :: rts0).length
          omega
      · intro j r hr
        rw [hclock]
        rcases (hmemR j r).mp hr with hr | ⟨hj, hr⟩
        · have := hinv.clockR j r hr
          omega
        · obtain ⟨h1, h2, _, _⟩ := hfacts' r hr
          omega
      · intro e he
        rw [hEv] at he
        rw [hclock]
        rcases List.mem_append.mp he with he | he
        · have := hinv.evClock e he
          omega
        · obtain ⟨r, hr, hre2⟩ := List.mem_map.mp he
          obtain ⟨h1, h2, _, _⟩ := hfacts' r hr
          rw [← hre2]
          constructor
          · show lrec.ats < st.clock + 1 + (rt0 :: rts0).length
            show st.clock < st.clock + 1 + (rt0 :: rts0).length
            omega
          · show r.ats < st.clock + 1 + (rt0 :: rts0).length
            omega
      · intro j r hr
        rw [hLT] at hr
        rcases (hmemL j r).mp hr with hr | ⟨hj, hr⟩
        · exact hinv.boundL j r hr
        · subst hr
          exact hbt
      · intro j r hr
        rcases (hmemR j r).mp hr with hr | ⟨hj, hr⟩
        · exact hinv.boundR j r hr
        · exact (hfacts' r hr).2.2.2
      · intro j r hr
        rw [hLT] at hr
        rcases (hmemL j r).mp hr with hr | ⟨hj, hr⟩
        · exact hinv.keysL j r hr
        · subst hr
          exact hkt
      · intro j r hr
        rw [hLT] at hr
        rcases (hmemL j r).mp hr with hr | ⟨hj, hr⟩
        · exact hinv.idxL j r hr
        · subst hr hj
          exact ⟨K, hck, rfl⟩
      · intro j r hr
        rcases (hmemR j r).mp hr with hr | ⟨hj, hr⟩
        · exact hinv.idxR j r hr
        · obtain ⟨_, _, h3, _⟩ := hfacts' r hr
          refine ⟨K, ?_, hj.symm⟩
          rw [concatKey_eq_of_vals env.vars r.tuple t h3, hck]
      · intro j
        by_cases hj : j = I
        · subst hj
          have h2 : (probe env st' lrec I).rightTable I = st.rightTable I ++ regs := by
            rw [hRTr]
            simp [hstdef]
          rw [h2, List.map_append, List.nodup_append]
          refine ⟨hinv.atsR I, hnd, ?_⟩
          intro a ha hb
          obtain ⟨r, hr, hra⟩ := List.mem_map.mp ha
          obtain ⟨r2, hr2, hra2⟩ := List.mem_map.mp hb
          have hc1 := hinv.clockR I r hr
          have hc2 := (hfacts' r2 hr2).1
          rw [← hra2] at hra
          omega
        · have h2 : (probe env st' lrec I).rightTable j = st.rightTable j := by
            rw [hRTr]
            simp [hj, hstdef]
          rw [h2]
          exact hinv.atsR j
      · intro j l hl
        rw [hLT] at hl
        rcases (hmemL j l).mp hl with hl | ⟨hj, hl⟩
        · obtain ⟨r, hr, hlr⟩ := hinv.covered j l hl
          exact ⟨r, (hmemR j r).mpr (Or.inl hr), hlr⟩
        · subst hl hj
          have : 0 < regs.length := by
            rw [hlen]
            simp
          obtain ⟨r0, hr0⟩ := List.exists_mem_of_length_pos this
          refine ⟨r0, (hmemR I r0).mpr (Or.inr ⟨rfl, hr0⟩), ?_⟩
          exact ((hfacts' r0 hr0).2.2.1).symm
      · intro j j2 l hl r hr hm
        rw [hEv, List.count_append]
        have hE : st'.events = st.events := rfl
        rw [hE]
        rw [hLT] at hl
        rcases (hmemL j l).mp hl with hl | ⟨hj, hl⟩
        · rcases (hmemR j2 r).mp hr with hr | ⟨hj2, hr⟩
          · have h1 := hinv.onceEv j j2 l hl r hr hm
            have hlc := hinv.clockL j l hl
            have h2 : ((regs.map (fun r => (lrec.ats, r.ats))).count (l.ats, r.ats)) = 0 := by
              apply count_pair_map_ne
              show l.ats ≠ st.clock
              omega
            omega
          · exfalso
            apply hnomatchL j l hl
            exact hm.trans (hfacts' r hr).2.2.1
        · subst hl
          rcases (hmemR j2 r).mp hr with hr | ⟨hj2, hr⟩
          · exfalso
            have hj2I : j2 = I := hsamePart j2 r hr hm
            rw [hj2I] at hr
            have hAny3 : (st.rightTable I).any
                (fun r => decide (valsOf env.vars lrec.tuple = valsOf env.vars r.tuple)) = true :=
              List.any_eq_true.mpr ⟨r, hr, decide_eq_true hm⟩
            rw [hAny3] at hnoj
            cases hnoj
          · have h1 : st.events.count (lrec.ats, r.ats) = 0 := by
              apply count_eq_zero_of_fst_lt
              intro e he
              exact (hinv.evClock e he).1
            have h2 : ((regs.map (fun q => (lrec.ats, q.ats))).count (lrec.ats, r.ats)) = 1 := by
              rw [count_pair_map]
              exact List.count_eq_one_of_mem hnd (List.mem_map.mpr ⟨r, hr, rfl⟩)
            omega
      · rw [hRes, hEv]
        have h1 := hinv.resEv
        have h2 := hlen
        simp only [hstdef, List.length_append, List.length_map, List.length_cons] at h2 ⊢
        omega
      · intro c hc
        rw [hCalls] at hc
        rcases List.mem_append.mp hc with hc | hc
        · obtain ⟨j, l, hl, hi⟩ := hinv.callsFrom c hc
          refine ⟨j, l, ?_, hi⟩
          rw [hLT]
          exact (hmemL j l).mpr (Or.inl hl)
        · simp only [List.mem_singleton] at hc
          subst hc
          refine ⟨I, lrec, ?_, hinst⟩
          rw [hLT]
          exact (hmemL I lrec).mpr (Or.inr ⟨rfl, rfl⟩)
      · rw [hCalls, List.nodup_append]
        exact ⟨hinv.callsNodup, by simp, by
          intro a ha hb
          simp only [List.mem_singleton] at hb
          subst hb
          exact hinstFresh ha⟩
      · intro j r hr
        rw [hLT] at hr
        rcases (hmemL j r).mp hr with hr | ⟨hj, hr⟩
        · exact List.mem_append.mpr (Or.inl (hinv.ltFrom j r hr))
        · subst hr
          simp
      · intro u hu
        rcases List.mem_append.mp hu with hu | hu
        · obtain ⟨j, r, hr, hrt⟩ := hinv.seenIn u hu
          refine ⟨j, r, ?_, hrt⟩
          rw [hLT]
          exact (hmemL j r).mpr (Or.inl hr)
        · simp only [List.mem_singleton] at hu
          subst hu
          refine ⟨I, lrec, ?_, rfl⟩
          rw [hLT]
          exact (hmemL I lrec).mpr (Or.inr ⟨rfl, rfl⟩)
      · rw [hRes]
        have h1 := hinv.resCount
        simp only [hstdef, List.length_append, List.length_map, List.length_cons,
          List.length_singleton, List.length_nil]
        omega

theorem foldl_inv (env : NLOEnv) (hv : env.vars ≠ []) :
    ∀ (ts : List Dict) (seen : List Dict) (st : NLOState),
      NLOInv env seen st →
      (∀ t ∈ ts, boundAll env.vars t ∧ (t.map Prod.fst).Nodup) →
      NLOInv env (seen ++ ts) (List.foldl (insertAndProbe env) st ts) := by
  intro ts
  induction ts with
  | nil =>
    intro seen st hinv hts
    simpa using hinv
  | cons t rest ih =>
    intro seen st hinv hts
    have hmem : t ∈ t :: rest := by simp
    have h1 := insertAndProbe_inv env seen st t hinv hv (hts t hmem).1 (hts t hmem).2
    have h2 := ih (seen ++ [t]) (insertAndProbe env st t) h1
      (fun u hu => hts u (by simp [hu]))
    simpa using h2

/-- The execution invariant holds of the final state of `NLOexecute` whenever
the join-variable list is non-empty and every left tuple binds the join
variables with duplicate-free keys. -/
theorem NLOexecute_inv (env : NLOEnv) (ts : List Dict) (hv : env.vars ≠ [])
    (hts : ∀ t ∈ ts, boundAll env.vars t ∧ (t.map Prod.fst).Nodup) :
    NLOInv env ts ((NLOexecute env ts).1) := by
  show NLOInv env ts (processBuffer env initNLOState (ts.map some ++ [none]))
  rw [processBuffer_eq_foldl]
  have h := foldl_inv env hv ts [] initNLOState (NLOInv_init env) hts
  simpa using h

/-- Environment with no join variables: the left and right operands share no
variables, the remote source always answers with an immediate EOF, and the
right operand exposes the single attribute `z`. -/
def nloEnvC1 : NLOEnv :=
  ⟨fun _ => 0, 128, fun _ _ => [], ["z"], []⟩

/-- C1, counterexample: with an empty join-variable list and two left tuples,
the second probe reaches `if join:` with `join` unassigned (the `for v in var`
loop body never ran), so the operator dies with UnboundLocalError and writes
nothing at all to the output stream — 0 output tuples for 2 left input
tuples, contradicting `|output| >= |left_input|`. -/
theorem C1_counterexample_vars_empty_crash :
    ((NLOexecute nloEnvC1 [[("y", "1")], [("y", "2")]]).1).crashed = true ∧
    (NLOexecute nloEnvC1 [[("y", "1")], [("y", "2")]]).2 = [] ∧
    [[("y", "1")], [("y", "2")]].length = 2 := by
  refine ⟨by decide, by decide, rfl⟩

/-- C1 (amended): when the join-variable list is non-empty and every left
tuple binds the join variables with duplicate-free keys, the operator does
not crash, the output stream is the result list followed by the EOF
sentinel, and at least as many tuples are written before the EOF as there
are left input tuples (OPTIONAL preservation). -/
theorem C1_nlo_optional_preservation (env : NLOEnv) (ts : List Dict)
    (hv : env.vars ≠ [])
    (hts : ∀ t ∈ ts, boundAll env.vars t ∧ (t.map Prod.fst).Nodup) :
    ((NLOexecute env ts).1).crashed = false ∧
    (NLOexecute env ts).2 = ((NLOexecute env ts).1).results.map some ++ [none] ∧
    ts.length ≤ ((NLOexecute env ts).1).results.length := by
  have hinv := NLOexecute_inv env ts hv hts
  refine ⟨hinv.ok, ?_, hinv.resCount⟩
  show (if ((NLOexecute env ts).1).crashed then ([] : List (Option Dict))
      else ((NLOexecute env ts).1).results.map some ++ [none]) =
    ((NLOexecute env ts).1).results.map some ++ [none]
  rw [hinv.ok]
  simp

/-- Environment with join variable `x`, right attribute `z`, and a remote
source that always answers with an immediate EOF. -/
def nloEnvW : NLOEnv :=
  ⟨fun s => s.length, 128, fun _ _ => [], ["z"], ["x"]⟩

theorem C1_nlo_optional_preservation_witness :
    ((NLOexecute nloEnvW [[("x", "a")]]).1).crashed = false ∧
    (NLOexecute nloEnvW [[("x", "a")]]).2 =
      ((NLOexecute nloEnvW [[("x", "a")]]).1).results.map some ++ [none] ∧
    [[("x", "a")]].length ≤ ((NLOexecute nloEnvW [[("x", "a")]]).1).results.length := by
  refine C1_nlo_optional_preservation nloEnvW [[("x", "a")]] (by decide) ?_
  intro t ht
  simp only [List.mem_singleton] at ht
  subst ht
  refine ⟨?_, by decide⟩
  intro v hv
  simp only [nloEnvW, List.mem_singleton] at hv
  subst hv
  rfl

/-- C2, counterexample: in the crashed run of `nloEnvC1` the final right
table holds a cached record whose join with the first left tuple is
vacuous (no join variables), yet the output stream holds zero combined
tuples — not exactly one — because the operator died before flushing
results. -/
theorem C2_counterexample_crash_zero_emissions :
    (((NLOexecute nloEnvC1 [[("y", "1")], [("y", "2")]]).1).rightTable 0).length = 1 ∧
    (((NLOexecute nloEnvC1 [[("y", "1")], [("y", "2")]]).1).leftTable 0).length = 2 ∧
    (NLOexecute nloEnvC1 [[("y", "1")], [("y", "2")]]).2 = [] := by
  refine ⟨by decide, by decide, by decide⟩

/-- C2 (amended): `isDuplicated(rec, r)` holds iff `rec.ats < r.ats`, and in
every run with a non-empty join-variable list whose left tuples bind the
join variables with duplicate-free keys, each pair of a stored left record
and a stored right record agreeing on every join variable is emitted exactly
once (witnessed by the emission-event ledger, which matches the result list
one for one). -/
theorem C2_join_pair_exactly_once (env : NLOEnv) (ts : List Dict)
    (hv : env.vars ≠ [])
    (hts : ∀ t ∈ ts, boundAll env.vars t ∧ (t.map Prod.fst).Nodup) :
    (∀ r1 r2 : Record, isDuplicated r1 r2 = true ↔ r1.ats < r2.ats) ∧
    (∀ i j l r, l ∈ ((NLOexecute env ts).1).leftTable i →
      r ∈ ((NLOexecute env ts).1).rightTable j →
      valsOf env.vars l.tuple = valsOf env.vars r.tuple →
      ((NLOexecute env ts).1).events.count (l.ats, r.ats) = 1) ∧
    ((NLOexecute env ts).1).results.length = ((NLOexecute env ts).1).events.length := by
  have hinv := NLOexecute_inv env ts hv hts
  refine ⟨?_, ?_, hinv.resEv⟩
  · intro r1 r2
    simp only [isDuplicated, Bool.not_eq_true', decide_eq_false_iff_not, ge_iff_le,
      Nat.not_le]
  · intro i j l r hl hr hm
    exact hinv.onceEv i j l hl r hr hm

theorem C2_join_pair_exactly_once_witness :
    (∀ r1 r2 : Record, isDuplicated r1 r2 = true ↔ r1.ats < r2.ats) ∧
    (∀ i j l r, l ∈ ((NLOexecute nloEnvW [[("x", "a")]]).1).leftTable i →
      r ∈ ((NLOexecute nloEnvW [[("x", "a")]]).1).rightTable j →
      valsOf nloEnvW.vars l.tuple = valsOf nloEnvW.vars r.tuple →
      ((NLOexecute nloEnvW [[("x", "a")]]).1).events.count (l.ats, r.ats) = 1) ∧
    ((NLOexecute nloEnvW [[("x", "a")]]).1).results.length =
      ((NLOexecute nloEnvW [[("x", "a")]]).1).events.length := by
  refine C2_join_pair_exactly_once nloEnvW [[("x", "a")]] (by decide) ?_
  intro t ht
  simp only [List.mem_singleton] at ht
  subst ht
  refine ⟨?_, by decide⟩
  intro v hv
  simp only [nloEnvW, List.mem_singleton] at hv
  subst hv
  rfl

/-- Environment for the C3 scenario: join variable `x`, right attributes
`x` and `z`, and a remote source answering the instance `["a"]` with the
single tuple `{x:"a", z:"Z"}`. -/
def nloEnvC3 : NLOEnv :=
  ⟨fun s => s.length, 128,
    fun _ inst => if inst = ["a"] then [[("x", "a"), ("z", "Z")]] else [],
    ["x", "z"], ["x"]⟩

/-- C3: when the partition already holds a record matching the probing tuple
on every join variable (and the duplicate check cannot fire), `probe` leaves
the call ledger untouched — the remote source is not contacted; and in the
two-tuple scenario the whole execution issues exactly one remote call (for
instance `["a"]`) and outputs the two expected combined tuples. -/
theorem C3_local_match_no_remote_call :
    (∀ (env : NLOEnv) (st : NLOState) (lrec : Record) (i : Nat),
      st.crashed = false → env.vars ≠ [] →
      boundAll env.vars lrec.tuple →
      (∀ r ∈ st.rightTable i, boundAll env.vars r.tuple) →
      (∀ r ∈ st.rightTable i, isDuplicated lrec r = false) →
      (st.rightTable i).any
        (fun r => decide (valsOf env.vars lrec.tuple = valsOf env.vars r.tuple)) = true →
      (probe env st lrec i).calls = st.calls) ∧
    ((NLOexecute nloEnvC3 [[("x", "a"), ("y", "1")], [("x", "a"), ("y", "2")]]).1).calls =
      [["a"]] ∧
    (NLOexecute nloEnvC3 [[("x", "a"), ("y", "1")], [("x", "a"), ("y", "2")]]).2 =
      [some [("x", "a"), ("z", "Z"), ("y", "1")],
       some [("x", "a"), ("y", "2"), ("z", "Z")], none] := by
  refine ⟨?_, by decide, by decide⟩
  intro env st lrec i hcr hv hb hbR hdup hany
  rw [probe_spec_local env st lrec i hcr hv hb hbR hdup hany]

/-- Right table for the C3 witness: every partition holds the single cached
record `{x:"a", z:"Z"}` with arrival timestamp 0. -/
def rtWitC3 : Table := fun _ => [⟨[("x", "a"), ("z", "Z")], 0, 0⟩]

def stWitC3 : NLOState := ⟨Table.empty, rtWitC3, [], 1, [], [], false⟩

theorem C3_local_match_no_remote_call_witness :
    (probe nloEnvC3 stWitC3 ⟨[("x", "a")], 1, 0⟩ 0).calls = stWitC3.calls := by
  refine C3_local_match_no_remote_call.1 nloEnvC3 stWitC3 ⟨[("x", "a")], 1, 0⟩ 0
    rfl (by decide) ?_ ?_ ?_ (by decide)
  · intro v hv
    simp only [nloEnvC3, List.mem_singleton] at hv
    subst hv
    rfl
  · intro r hr
    simp only [stWitC3, rtWitC3, List.mem_singleton] at hr
    subst hr
    intro v hv
    simp only [nloEnvC3, List.mem_singleton] at hv
    subst hv
    rfl
  · intro r hr
    simp only [stWitC3, rtWitC3, List.mem_singleton] at hr
    subst hr
    rfl

/-- C10: after the optional branch of `probe` runs for the left record, the
partition gains exactly one cached record whose tuple is the all-attributes
empty padding updated with every binding of the left tuple (the emitted
result aliases the same dict), and that cached tuple agrees with the left
tuple on every join variable, so later probes of the partition can read the
join-variable keys. -/
theorem C10_optional_branch_alias (env : NLOEnv) (st : NLOState) (lrec : Record)
    (i : Nat) (inst : List String)
    (hcr : st.crashed = false) (hv : env.vars ≠ [])
    (hb : boundAll env.vars lrec.tuple)
    (hk : (lrec.tuple.map Prod.fst).Nodup)
    (hbR : ∀ r ∈ st.rightTable i, boundAll env.vars r.tuple)
    (hdup : ∀ r ∈ st.rightTable i, isDuplicated lrec r = false)
    (hnoj : (st.rightTable i).any
      (fun r => decide (valsOf env.vars lrec.tuple = valsOf env.vars r.tuple)) = false)
    (hinst : instancesOf env.vars lrec.tuple = some inst)
    (hre : env.rexec env.vars inst = []) :
    (probe env st lrec i).rightTable i =
      st.rightTable i ++ [⟨dupdate (padOf env.atts) lrec.tuple, st.clock, 0⟩] ∧
    (probe env st lrec i).results =
      st.results ++ [dupdate (padOf env.atts) lrec.tuple] ∧
    valsOf env.vars (dupdate (padOf env.atts) lrec.tuple) =
      valsOf env.vars lrec.tuple := by
  rw [probe_spec_optional env st lrec i inst hcr hv hb hbR hdup hnoj hinst hre]
  refine ⟨?_, rfl, ?_⟩
  · show (st.rightTable.insertRecord i
        ⟨dupdate (padOf env.atts) lrec.tuple, st.clock, 0⟩) i = _
    rw [insertRecord_self]
  · unfold valsOf
    apply List.map_congr_left
    intro v hv2
    apply dlookup_dupdate_of_mem (padOf env.atts) lrec.tuple v hk
    have := hb v hv2
    simpa [dmem] using this

theorem C10_optional_branch_alias_witness :
    (probe nloEnvW initNLOState ⟨[("x", "a")], 0, 0⟩ 1).rightTable 1 =
      initNLOState.rightTable 1 ++
        [⟨dupdate (padOf nloEnvW.atts) [("x", "a")], initNLOState.clock, 0⟩] ∧
    (probe nloEnvW initNLOState ⟨[("x", "a")], 0, 0⟩ 1).results =
      initNLOState.results ++ [dupdate (padOf nloEnvW.atts) [("x", "a")]] ∧
    valsOf nloEnvW.vars (dupdate (padOf nloEnvW.atts) [("x", "a")]) =
      valsOf nloEnvW.vars [("x", "a")] := by
  refine C10_optional_branch_alias nloEnvW initNLOState ⟨[("x", "a")], 0, 0⟩ 1 ["a"]
    rfl (by decide) ?_ (by decide) ?_ ?_ (by decide) (by decide) (by decide)
  · intro v hv
    simp only [nloEnvW, List.mem_singleton] at hv
    subst hv
    rfl
  · intro r hr
    simp [initNLOState, Table.empty] at hr
  · intro r hr
    simp [initNLOState, Table.empty] at hr

/-- `TripleMapType` of pyrml: a term map is template-, reference-, or
constant-valued. -/
inductive TripleMapType where
  | TEMPLATE
  | REFERENCE
  | CONSTANT
deriving DecidableEq

/-- `TermType` of pyrml: the generated RDF term kind. -/
inductive TermType where
  | IRI
  | BNode
  | Literal
deriving DecidableEq

/-- `TermMap(value, resource_type, term_type)` of pyrml, the fields used by
`TermMap2SQL`. -/
structure TermMap where
  value : String
  resource_type : TripleMapType
  term_type : TermType
deriving DecidableEq

/-- Modelled from the spec: the SQL term objects of `awudima.sql.lang.model`
(`SQLColumn` / `SQLFunction`), kept opaque: only their identity matters on the
constant path, where no term is produced. -/
inductive SQLTermE where
  | column : String → SQLTermE
  | function : String → List String → SQLTermE
deriving DecidableEq

/-- Modelled from the spec: an `SQLCondition` as built by
`get_filter_condition` — either the trivially false condition
`SQLCondition(False)`, a comparison whose left side is the SQL term, or a
comparison whose left side is a quoted constant string. -/
inductive SQLCond where
  | falseCond : SQLCond
  | cmpTerm : SQLTermE → String → String → SQLCond
  | cmp : String → String → String → SQLCond
deriving DecidableEq

/-- Modelled from the spec: the value `get_filter_condition` returns —
Python `None` (no filter: trivially true) or an `SQLAndCondition` over a
condition list. -/
inductive SQLFilter where
  | noFilter : SQLFilter
  | andC : List SQLCond → SQLFilter
deriving DecidableEq

/-- The `result_json_template` dict built by `get_sql_term`: its `type` and
`value` entries. -/
structure ResultTemplate where
  ttype : String
  tvalue : String
deriving DecidableEq

/-- The single-quote character `'` (ASCII 39). -/
def squoteCh : Char := Char.ofNat 39

/-- The single-quote string. -/
def squote : String := String.mk [squoteCh]

/-- `get_sql_term(term_map, ...)` restricted to a constant-valued term map
(the final `else` branch, term_map.py lines 177–193): the SQL term stays
`None` and the result template carries the raw constant `term_map.value`
with the type derived from `term_type`. -/
def get_sql_term_constant (tm : TermMap) : Option SQLTermE × ResultTemplate :=
  (none,
   { ttype :=
       match tm.term_type with
       | TermType.BNode => "bnode"
       | TermType.Literal => "literal"
       | TermType.IRI => "uri",
     tvalue := tm.value })

/-- The re-quoting of `get_filter_condition`: if the constant RDF term's
name starts with a double quote, `<`, or a single quote, strip its first and
last characters and wrap the rest in single quotes; otherwise wrap the whole
name. `none` embeds the IndexError `name[0]` raises on an empty name. -/
def requoteC (name : String) : Option String :=
  match name.data with
  | [] => none
  | c :: _ =>
    if c = '"' ∨ c = '<' ∨ c = squoteCh then
      some (squote ++ String.mk ((name.data.drop 1).dropLast) ++ squote)
    else
      some (squote ++ name ++ squote)

/-- `get_filter_condition()` (term_map.py lines 195–225) for a constant-valued
term map, so that `self.term` and `self.sparql_result_template` come from
`get_sql_term_constant`. Outer `none` embeds a raised exception;
`SQLFilter.noFilter` is Python `None`. -/
def get_filter_condition_con (tm : TermMap) (rdf_term : Argument)
    (opr : String) : Option SQLFilter :=
  if rdf_term.constant = false then
    some SQLFilter.noFilter
  else
    let term := (get_sql_term_constant tm).1
    let tpl := (get_sql_term_constant tm).2
    match (if tm.term_type ≠ TermType.BNode then requoteC rdf_term.name
           else some rdf_term.name) with
    | none => none
    | some rdf_term_value =>
      match term with
      | some t => some (SQLFilter.andC [SQLCond.cmpTerm t opr rdf_term_value])
      | none =>
        if opr = "=" then
          if tpl.tvalue = rdf_term_value then
            some SQLFilter.noFilter
          else
            some (SQLFilter.andC [SQLCond.falseCond])
        else
          some (SQLFilter.andC
            [SQLCond.cmp (squote ++ tpl.tvalue ++ squote) opr rdf_term_value])

/-- The term map of the C9 example: constant literal `Addis Ababa`. -/
def addisTermMap : TermMap :=
  ⟨"Addis Ababa", TripleMapType.CONSTANT, TermType.Literal⟩

/-- The constant SPARQL argument whose name is the quoted literal
`"Addis Ababa"`. -/
def addisArg : Argument := ⟨"\"Addis Ababa\"", true, false⟩

/-- The constant SPARQL argument whose name is the quoted literal
`"Other"`. -/
def otherArg : Argument := ⟨"\"Other\"", true, false⟩

/-- C9: the CONSTANT-vs-CONSTANT `'='` comparison is NOT decided as the
docstring and spec describe.  The template value is the raw constant
(`Addis Ababa`) while the RDF term is re-quoted into `'Addis Ababa'`, so the
string equality test always sees the extra quotes: the equal-constants case
yields the trivially FALSE condition `SQLAndCondition([SQLCondition(False)])`
instead of the trivially true `None` — the same output as the genuinely
different constant `"Other"`; translation-time short-circuiting to true never
happens for quoted literals (code bug). -/
theorem C9_constant_constant_filter_bug :
    get_filter_condition_con addisTermMap addisArg "=" =
      some (SQLFilter.andC [SQLCond.falseCond]) ∧
    get_filter_condition_con addisTermMap addisArg "=" ≠ some SQLFilter.noFilter ∧
    get_filter_condition_con addisTermMap otherArg "=" =
      some (SQLFilter.andC [SQLCond.falseCond]) := by
  refine ⟨by decide, by decide, by decide⟩

end Awudima
